import Mathlib

/-!
Verification of the CPU-scheduling core of `app.py` (single-file Flask app).

The embedding below mirrors the Python source:
* `Proc` is the `Proc` dataclass (with `remaining` initialised to `burst`);
* `fcfs`, `sjf_nonpreemptive`, `sjf_preemptive`, `round_robin`,
  `priority_nonpreemptive`, `priority_preemptive` are the six policy
  functions.  The `while` loops are modelled as an explicit step function on
  a state record, iterated with a fuel parameter; `none` means the fuel ran
  out (in particular, a run that never terminates yields `none` for every
  fuel).  Python integers are modelled by `Int`.
* `compute_metrics_from_gantt` is the metrics helper; a Python `KeyError`
  (timeline actor absent from the descriptor dictionary) is modelled by
  `none`.  Python's float division in the averages is modelled by exact
  rational division.
* `selectAlgorithm`/`simulate` model the algorithm dispatch of the
  `/simulate` route, from the parsed descriptor list onwards (text parsing
  and HTML rendering are out of scope per the spec).
-/

namespace CPUSched

/-- The `Proc` dataclass: `pid, arrival, burst, priority` plus the mutable
`remaining` field, which `__post_init__` initialises to `burst`. -/
structure Proc where
  pid : String
  arrival : Int
  burst : Int
  priority : Int
  remaining : Int
deriving DecidableEq

/-- `Proc(pid, arrival, burst, priority)`: `remaining` starts at `burst`. -/
def mkProc (pid : String) (arrival burst priority : Int) : Proc :=
  ⟨pid, arrival, burst, priority, burst⟩

/-- Fresh copy, as in `[Proc(p.pid, p.arrival, p.burst, p.priority) for p in procs]`. -/
def reinit (p : Proc) : Proc := mkProc p.pid p.arrival p.burst p.priority

/-- One timeline entry `(actor, start, end)`. -/
abbrev GEntry := String × Int × Int

/-- A gantt/timeline: ordered list of `(actor, start, end)` intervals. -/
abbrev Gantt := List GEntry

/-- The processes moved from `remaining` to `ready` by the admission loop
`for p in remaining[:]: if p.arrival <= time: ready.append(p); remaining.remove(p)`
(in list order). -/
def admitted (t : Int) (rem : List Proc) : List Proc :=
  rem.filter (fun p => decide (p.arrival ≤ t))

/-- The processes left in `remaining` by the admission loop. -/
def notYet (t : Int) (rem : List Proc) : List Proc :=
  rem.filter (fun p => !decide (p.arrival ≤ t))

/-- `min(remaining, key=lambda x: x.arrival).arrival` of a nonempty list
(0 as junk value on `[]`, which the source never reaches). -/
def earliestArrival : List Proc → Int
  | [] => 0
  | p :: rest => rest.foldl (fun a q => min a q.arrival) p.arrival

/-- Stable insertion used by `sortK`; an element is placed before the first
existing element it compares `le` to, so earlier elements win ties. -/
def insertK (le : Proc → Proc → Bool) (x : Proc) : List Proc → List Proc
  | [] => [x]
  | y :: ys => if le x y then x :: y :: ys else y :: insertK le x ys

/-- Stable ascending sort, modelling Python's stable `list.sort(key=...)` /
`sorted(..., key=...)`. -/
def sortK (le : Proc → Proc → Bool) (l : List Proc) : List Proc :=
  l.foldr (insertK le) []

/-! ### FCFS (lines 27-39) -/

/-- Comparator for `sorted(procs, key=lambda p: p.arrival)`. -/
def arrLe (p q : Proc) : Bool := decide (p.arrival ≤ q.arrival)

/-- The single forward pass of `fcfs`: optional idle gap, then run the
process to completion. -/
def fcfsGo : List Proc → Int → Gantt
  | [], _ => []
  | p :: rest, t =>
    if t < p.arrival then
      ("idle", t, p.arrival) :: (p.pid, p.arrival, p.arrival + p.burst) ::
        fcfsGo rest (p.arrival + p.burst)
    else
      (p.pid, t, t + p.burst) :: fcfsGo rest (t + p.burst)

/-- `fcfs(procs)`. -/
def fcfs (procs : List Proc) : Gantt := fcfsGo (sortK arrLe procs) 0

/-! ### Non-preemptive loop policies: SJF (lines 41-59) and Priority (127-144).
Both run the same loop; only the sort key differs. -/

structure NPState where
  time : Int
  gantt : Gantt
  ready : List Proc
  rem : List Proc
deriving DecidableEq

/-- Negation of the loop guard `while remaining or ready`. -/
def npHalted (s : NPState) : Bool := s.rem.isEmpty && s.ready.isEmpty

/-- One iteration of the non-preemptive loop body.  Python checks
`if not ready` before sorting; since `sortK` of a list is `[]` iff the list
is `[]`, matching on the sorted list expresses the same branch. -/
def npStep (le : Proc → Proc → Bool) (s : NPState) : NPState :=
  let ready1 := s.ready ++ admitted s.time s.rem
  let rem1 := notYet s.time s.rem
  match sortK le ready1 with
  | [] =>
    if rem1.isEmpty then { s with ready := ready1, rem := rem1 }
    else
      let nxt := earliestArrival rem1
      { time := nxt, gantt := s.gantt ++ [("idle", s.time, nxt)],
        ready := ready1, rem := rem1 }
  | p :: rest =>
    { time := s.time + p.burst,
      gantt := s.gantt ++ [(p.pid, s.time, s.time + p.burst)],
      ready := rest, rem := rem1 }

/-- The `while remaining or ready` loop, with fuel. -/
def npRun (le : Proc → Proc → Bool) : Nat → NPState → Option Gantt
  | 0, _ => none
  | fuel + 1, s => if npHalted s then some s.gantt else npRun le fuel (npStep le s)

def npInit (procs : List Proc) : NPState := ⟨0, [], [], procs.map reinit⟩

/-- `key=lambda x: (x.burst, x.arrival)` as a lexicographic `≤`. -/
def sjfLe (p q : Proc) : Bool :=
  decide (p.burst < q.burst) || (decide (p.burst = q.burst) && decide (p.arrival ≤ q.arrival))

def sjf_nonpreemptive (fuel : Nat) (procs : List Proc) : Option Gantt :=
  npRun sjfLe fuel (npInit procs)

/-- `key=lambda x: (x.priority, x.arrival)` as a lexicographic `≤`. -/
def prioLe (p q : Proc) : Bool :=
  decide (p.priority < q.priority) ||
    (decide (p.priority = q.priority) && decide (p.arrival ≤ q.arrival))

def priority_nonpreemptive (fuel : Nat) (procs : List Proc) : Option Gantt :=
  npRun prioLe fuel (npInit procs)

/-! ### Round Robin (lines 97-125) -/

structure RRState where
  time : Int
  gantt : Gantt
  queue : List Proc
  rem : List Proc
deriving DecidableEq

def rrHalted (s : RRState) : Bool := s.rem.isEmpty && s.queue.isEmpty

/-- One iteration of the round-robin loop body, including the
`if p.remaining <= 0: continue` guard and the second admission pass that
runs before the just-run process is re-enqueued. -/
def rrStep (quantum : Int) (s : RRState) : RRState :=
  let queue1 := s.queue ++ admitted s.time s.rem
  let rem1 := notYet s.time s.rem
  match queue1 with
  | [] =>
    if rem1.isEmpty then { s with queue := queue1, rem := rem1 }
    else
      let nxt := earliestArrival rem1
      { time := nxt, gantt := s.gantt ++ [("idle", s.time, nxt)],
        queue := [], rem := rem1 }
  | p :: queue2 =>
    if p.remaining ≤ 0 then { s with queue := queue2, rem := rem1 }
    else
      let run := min quantum p.remaining
      let tEnd := s.time + run
      let p1 : Proc := { p with remaining := p.remaining - run }
      let queue3 := queue2 ++ admitted tEnd rem1
      let rem2 := notYet tEnd rem1
      let queue4 := if 0 < p1.remaining then queue3 ++ [p1] else queue3
      { time := tEnd, gantt := s.gantt ++ [(p.pid, s.time, tEnd)],
        queue := queue4, rem := rem2 }

def rrRun (quantum : Int) : Nat → RRState → Option Gantt
  | 0, _ => none
  | fuel + 1, s => if rrHalted s then some s.gantt else rrRun quantum fuel (rrStep quantum s)

def rrInit (procs : List Proc) : RRState := ⟨0, [], [], procs.map reinit⟩

def round_robin (fuel : Nat) (procs : List Proc) (quantum : Int) : Option Gantt :=
  rrRun quantum fuel (rrInit procs)

/-! ### Preemptive loop policies: SJF/SRTF (lines 61-95) and Priority (146-171).
Same loop; only the sort key differs.  The running process and its open
interval start are kept together as `cur : Option (Proc × Int)` (Python uses
the pair of variables `current`/`interval_start`, which are set and cleared
together).  Python's object-identity test `chosen is not current` is modelled
by pid comparison, which coincides with identity on the unique-pid inputs all
claims range over. -/

structure PreState where
  time : Int
  gantt : Gantt
  ready : List Proc
  rem : List Proc
  cur : Option (Proc × Int)
deriving DecidableEq

def curList : Option (Proc × Int) → List Proc
  | none => []
  | some (c, _) => [c]

def preHalted (s : PreState) : Bool := s.rem.isEmpty && s.ready.isEmpty && s.cur.isNone

/-- The execution half of the preemptive loop body, once `chosen` (the head
of the sorted candidate list) is fixed: close the old interval on a pid
change, remove `chosen` from ready, run it one tick, retire it when its
remaining hits zero.  Note (faithful to the source): on preemption the old
running process's interval is closed but the process is *not* returned to
`ready` — it is dropped. -/
def preExec (s : PreState) (chosen : Proc) : PreState :=
  let ready1 := s.ready ++ admitted s.time s.rem
  let rem1 := notYet s.time s.rem
  let gantt1 :=
    match s.cur with
    | some (c, ist) =>
      if chosen.pid ≠ c.pid then s.gantt ++ [(c.pid, ist, s.time)] else s.gantt
    | none => s.gantt
  let ready2 := ready1.erase chosen
  let ist1 :=
    match s.cur with
    | some (c, ist) => if chosen.pid = c.pid then ist else s.time
    | none => s.time
  let c1 : Proc := { chosen with remaining := chosen.remaining - 1 }
  let time1 := s.time + 1
  if c1.remaining = 0 then
    { time := time1, gantt := gantt1 ++ [(c1.pid, ist1, time1)],
      ready := ready2, rem := rem1, cur := none }
  else
    { time := time1, gantt := gantt1,
      ready := ready2, rem := rem1, cur := some (c1, ist1) }

/-- One iteration of the preemptive loop body. -/
def preStep (le : Proc → Proc → Bool) (s : PreState) : PreState :=
  let ready1 := s.ready ++ admitted s.time s.rem
  let rem1 := notYet s.time s.rem
  let cands := ready1 ++ curList s.cur
  match sortK le cands with
  | [] =>
    if rem1.isEmpty then { s with ready := ready1, rem := rem1 }
    else
      let nxt := earliestArrival rem1
      { time := nxt, gantt := s.gantt ++ [("idle", s.time, nxt)],
        ready := ready1, rem := rem1, cur := s.cur }
  | chosen :: _ => preExec s chosen

def preRun (le : Proc → Proc → Bool) : Nat → PreState → Option Gantt
  | 0, _ => none
  | fuel + 1, s => if preHalted s then some s.gantt else preRun le fuel (preStep le s)

def preInit (procs : List Proc) : PreState := ⟨0, [], [], procs.map reinit, none⟩

/-- `key=lambda x: (x.remaining, x.arrival)` as a lexicographic `≤`. -/
def srtfLe (p q : Proc) : Bool :=
  decide (p.remaining < q.remaining) ||
    (decide (p.remaining = q.remaining) && decide (p.arrival ≤ q.arrival))

def sjf_preemptive (fuel : Nat) (procs : List Proc) : Option Gantt :=
  preRun srtfLe fuel (preInit procs)

/-- `key=lambda x: (x.priority, x.arrival, x.remaining)` as a lexicographic `≤`. -/
def prioPreLe (p q : Proc) : Bool :=
  decide (p.priority < q.priority) ||
    (decide (p.priority = q.priority) &&
      (decide (p.arrival < q.arrival) ||
        (decide (p.arrival = q.arrival) && decide (p.remaining ≤ q.remaining))))

def priority_preemptive (fuel : Nat) (procs : List Proc) : Option Gantt :=
  preRun prioPreLe fuel (preInit procs)

/-! ### Metrics helper `compute_metrics_from_gantt` (lines 177-203) -/

/-- An input descriptor `{pid, arrival, burst, priority}`. -/
structure Desc where
  pid : String
  arrival : Int
  burst : Int
  priority : Int
deriving DecidableEq

/-- Python dict insertion: an existing key keeps its position and gets the
new value, a new key is appended. -/
def dictInsert (m : List Desc) (x : Desc) : List Desc :=
  if m.any (fun y => y.pid == x.pid) then m.map (fun y => if y.pid == x.pid then x else y)
  else m ++ [x]

/-- The `info` dict built from `proc_desc` (keyed by pid). -/
def infoOf (ds : List Desc) : List Desc := ds.foldl dictInsert []

/-- The `starts` / `completions` dicts: pid to optional tick. -/
abbrev TimeMap := List (String × Option Int)

def tmFind (m : TimeMap) (k : String) : Option (Option Int) :=
  match m.find? (fun kv => kv.1 == k) with
  | some kv => some kv.2
  | none => none

def tmSet (m : TimeMap) (k : String) (v : Int) : TimeMap :=
  m.map (fun kv => if kv.1 == k then (kv.1, some v) else kv)

/-- The scan `for pid, s, e in gantt: ...` filling `starts` (first write
wins) and `completions` (last write wins), skipping `idle` rows.  Reading
`starts[pid]` for a pid that is not a key raises `KeyError` in Python,
modelled by `none`. -/
def fillTimes : Gantt → TimeMap → TimeMap → Option (TimeMap × TimeMap)
  | [], st, cp => some (st, cp)
  | (a, sv, ev) :: rest, st, cp =>
    if a = "idle" then fillTimes rest st cp
    else
      match tmFind st a with
      | some cur =>
        let st1 := match cur with
          | none => tmSet st a sv
          | some _ => st
        fillTimes rest st1 (tmSet cp a ev)
      | none => none

/-- One metrics row (nullable timing fields). -/
structure Row where
  pid : String
  arrival : Int
  burst : Int
  priority : Int
  start : Option Int
  completion : Option Int
  tat : Option Int
  wt : Option Int
  rt : Option Int
deriving DecidableEq

/-- The row built for one descriptor from the filled `starts`/`completions`. -/
def rowOf (st cp : TimeMap) (d : Desc) : Row :=
  match tmFind st d.pid, tmFind cp d.pid with
  | some (some s), some (some e) =>
    { pid := d.pid, arrival := d.arrival, burst := d.burst, priority := d.priority,
      start := some s, completion := some e,
      tat := some (e - d.arrival), wt := some (e - d.arrival - d.burst),
      rt := some (s - d.arrival) }
  | _, _ =>
    { pid := d.pid, arrival := d.arrival, burst := d.burst, priority := d.priority,
      start := none, completion := none, tat := none, wt := none, rt := none }

/-- The aggregate `{avg_tat, avg_wt, avg_rt}` (Python float division is
modelled as exact rational division). -/
structure Avgs where
  avg_tat : Option ℚ
  avg_wt : Option ℚ
  avg_rt : Option ℚ
deriving DecidableEq

/-- `sum(r[f] for r in completed)` over rows whose field is present. -/
def optSum (f : Row → Option Int) (l : List Row) : Int :=
  (l.map (fun r => (f r).getD 0)).sum

def compute_metrics_from_gantt (ds : List Desc) (gantt : Gantt) :
    Option (List Row × Avgs) :=
  let info := infoOf ds
  let st0 : TimeMap := info.map (fun d => (d.pid, (none : Option Int)))
  let cp0 : TimeMap := info.map (fun d => (d.pid, (none : Option Int)))
  match fillTimes gantt st0 cp0 with
  | none => none
  | some (st, cp) =>
    let rows := info.map (rowOf st cp)
    let completed := rows.filter (fun r => r.tat.isSome)
    let mkAvg : (Row → Option Int) → Option ℚ := fun f =>
      if completed.isEmpty then none
      else some ((optSum f completed : ℚ) / (completed.length : ℚ))
    some (rows, ⟨mkAvg Row.tat, mkAvg Row.wt, mkAvg Row.rt⟩)

/-- The aggregate of one field over the completed rows, as computed by the
code (named copy of the `mkAvg` closure above, for stating equations). -/
def mkAvg (f : Row → Option Int) (completed : List Row) : Option ℚ :=
  if completed.isEmpty then none
  else some ((optSum f completed : ℚ) / (completed.length : ℚ))

/-- The full aggregate triple the code builds from a row list. -/
def mkAvgs (rows : List Row) : Avgs :=
  ⟨mkAvg Row.tat (rows.filter (fun r => r.tat.isSome)),
   mkAvg Row.wt (rows.filter (fun r => r.tat.isSome)),
   mkAvg Row.rt (rows.filter (fun r => r.tat.isSome))⟩

/-! ### The `/simulate` route, from parsed descriptors onwards (lines 236-255) -/

def procsOf (ds : List Desc) : List Proc :=
  ds.map (fun d => mkProc d.pid d.arrival d.burst d.priority)

/-- The algorithm dispatch (lines 239-252).  Note the final `else` falls
back to `fcfs` for an unknown key; there is no validation of `quantum`. -/
def selectAlgorithm (algorithm : String) (fuel : Nat) (procs : List Proc)
    (quantum : Int) : Option Gantt :=
  if algorithm = "fcfs" then some (fcfs procs)
  else if algorithm = "sjf-np" then sjf_nonpreemptive fuel procs
  else if algorithm = "sjf-p" then sjf_preemptive fuel procs
  else if algorithm = "rr" then round_robin fuel procs quantum
  else if algorithm = "priority-np" then priority_nonpreemptive fuel procs
  else if algorithm = "priority-p" then priority_preemptive fuel procs
  else some (fcfs procs)

/-- Run the chosen algorithm on the descriptors and compute metrics. -/
def simulate (algorithm : String) (quantum : Int) (fuel : Nat) (ds : List Desc) :
    Option (Gantt × List Row × Avgs) :=
  match selectAlgorithm algorithm fuel (procsOf ds) quantum with
  | none => none
  | some g =>
    match compute_metrics_from_gantt ds g with
    | none => none
    | some (rows, avgs) => some (g, rows, avgs)

/-! ### Well-formedness of inputs (spec section 4: `arrival ≥ 0`, `burst > 0`,
unique non-empty pids; the sentinel `idle` must not be used as a pid for the
actor-based claims). -/

def WFProc (p : Proc) : Prop := 0 ≤ p.arrival ∧ 0 < p.burst ∧ p.pid ≠ ""

def WFInput (l : List Proc) : Prop :=
  (∀ p ∈ l, WFProc p) ∧ (l.map Proc.pid).Nodup

def NoIdlePid (l : List Proc) : Prop := ∀ p ∈ l, p.pid ≠ "idle"

instance decWFProc (p : Proc) : Decidable (WFProc p) :=
  inferInstanceAs (Decidable (0 ≤ p.arrival ∧ 0 < p.burst ∧ p.pid ≠ ""))

instance decWFInput (l : List Proc) : Decidable (WFInput l) :=
  inferInstanceAs (Decidable ((∀ p ∈ l, WFProc p) ∧ (l.map Proc.pid).Nodup))

instance decNoIdlePid (l : List Proc) : Decidable (NoIdlePid l) :=
  inferInstanceAs (Decidable (∀ p ∈ l, p.pid ≠ "idle"))

/-! ### Timeline structure predicates -/

/-- `ChainFrom a g b`: the intervals of `g` are consecutive, each nonempty,
starting exactly at `a` and ending exactly at `b`. -/
def ChainFrom : Int → Gantt → Int → Prop
  | a, [], b => a = b
  | a, (_, s, e) :: rest, b => s = a ∧ s < e ∧ ChainFrom e rest b

instance chainFromDec : (a : Int) → (g : Gantt) → (b : Int) → Decidable (ChainFrom a g b)
  | a, [], b => inferInstanceAs (Decidable (a = b))
  | a, (_, s, e) :: rest, b =>
    have : Decidable (ChainFrom e rest b) := chainFromDec e rest b
    inferInstanceAs (Decidable (s = a ∧ s < e ∧ ChainFrom e rest b))

/-- End of the last interval (`maxCompletion`), 0 for an empty timeline. -/
def ganttEnd (g : Gantt) : Int :=
  match g.getLast? with
  | some (_, _, e) => e
  | none => 0

/-- Total time the timeline attributes to actor `a`. -/
def sumLen (g : Gantt) (a : String) : Int :=
  ((g.filter (fun iv => iv.1 == a)).map (fun iv => iv.2.2 - iv.2.1)).sum

/-- The processes of `l` that have not arrived by time `t`. -/
def notArrived (l : List Proc) (t : Int) : List Proc :=
  l.filter (fun p => decide (t < p.arrival))

/-- The claim C3 bundle: every interval is nonempty; intervals are pairwise
non-overlapping and sorted by start ascending; together they exactly cover
`[0, maxCompletion)` (so any instant not covered by a process interval is
covered by one, necessarily with actor `idle`); every actor is a pid of the
input or the sentinel `idle`. -/
def TimelineOK (pids : List String) (g : Gantt) : Prop :=
  ChainFrom 0 g (ganttEnd g) ∧
  (∀ iv ∈ g, iv.2.1 < iv.2.2) ∧
  List.Pairwise (fun iv jv : GEntry => iv.2.2 ≤ jv.2.1) g ∧
  List.Pairwise (fun iv jv : GEntry => iv.2.1 < jv.2.1) g ∧
  (∀ t : Int, 0 ≤ t → t < ganttEnd g → ∃ iv ∈ g, iv.2.1 ≤ t ∧ t < iv.2.2) ∧
  (∀ iv ∈ g, iv.1 = "idle" ∨ iv.1 ∈ pids)

end CPUSched

namespace CPUSched

/-! ## Run invariants for the three loop shapes.

`l0` is the (fresh-copied) process list the run started from.  Each
invariant records: the gantt built so far is a chain from 0 to the current
clock (for the preemptive loop, to the open interval's start); every ready
process has arrived; every live process still has positive burst/remaining
and carries a pid of the input; the remaining list is exactly the
not-yet-arrived processes at some instant no later than the clock; and every
recorded actor is `idle` or an input pid. -/

structure NPInv (l0 : List Proc) (s : NPState) : Prop where
  chain : ChainFrom 0 s.gantt s.time
  readyArr : ∀ p ∈ s.ready, p.arrival ≤ s.time
  live : ∀ p ∈ s.ready ++ s.rem, 0 < p.burst ∧ p.pid ∈ l0.map Proc.pid
  remChar : ∃ τ : Int, τ ≤ s.time ∧ s.rem = notArrived l0 τ
  actors : ∀ iv ∈ s.gantt, iv.1 = "idle" ∨ iv.1 ∈ l0.map Proc.pid

structure RRInv (l0 : List Proc) (s : RRState) : Prop where
  chain : ChainFrom 0 s.gantt s.time
  queueArr : ∀ p ∈ s.queue, p.arrival ≤ s.time
  live : ∀ p ∈ s.queue ++ s.rem, 0 < p.remaining ∧ p.pid ∈ l0.map Proc.pid
  remChar : ∃ τ : Int, τ ≤ s.time ∧ s.rem = notArrived l0 τ
  actors : ∀ iv ∈ s.gantt, iv.1 = "idle" ∨ iv.1 ∈ l0.map Proc.pid

structure PreInv (l0 : List Proc) (s : PreState) : Prop where
  chain_none : s.cur = none → ChainFrom 0 s.gantt s.time
  chain_some : ∀ c ist, s.cur = some (c, ist) → ChainFrom 0 s.gantt ist ∧ ist < s.time
  readyArr : ∀ p ∈ s.ready, p.arrival ≤ s.time
  curArr : ∀ c ist, s.cur = some (c, ist) → c.arrival ≤ s.time
  live : ∀ p ∈ s.ready ++ s.rem ++ curList s.cur, 0 < p.remaining ∧ p.pid ∈ l0.map Proc.pid
  remChar : ∃ τ : Int, τ ≤ s.time ∧ s.rem = notArrived l0 τ
  actors : ∀ iv ∈ s.gantt, iv.1 = "idle" ∨ iv.1 ∈ l0.map Proc.pid

/-! ## Termination measures for the three loops -/

def sumRemNat (l : List Proc) : Nat := (l.map (fun p => p.remaining.toNat)).sum

def admittableB (t : Int) (rem : List Proc) : Bool :=
  rem.any (fun p => decide (p.arrival ≤ t))

/-- 1 while an idle jump may still be needed before the next admission. -/
def idleDebt (t : Int) (rem : List Proc) : Nat := if admittableB t rem then 0 else 1

def npMeasure (s : NPState) : Nat :=
  2 * s.rem.length + s.ready.length + idleDebt s.time s.rem

def rrMeasure (s : RRState) : Nat :=
  sumRemNat (s.queue ++ s.rem) + 2 * s.rem.length + s.queue.length + idleDebt s.time s.rem

def preMeasure (s : PreState) : Nat :=
  sumRemNat (s.ready ++ curList s.cur ++ s.rem) + 2 * s.rem.length + idleDebt s.time s.rem

/-! ## Spec-side restatement of the metrics row fields (claim C6).

These definitions follow the spec's words — `start`/`completion` are the
start of the first and the end of the last non-idle interval carrying the
pid, `TAT = completion - arrival`, `WT = TAT - burst`, `RT = start -
arrival` — and are compared with `compute_metrics_from_gantt`. -/

def pidIntervals (g : Gantt) (a : String) : Gantt :=
  g.filter (fun iv => iv.1 == a && !(iv.1 == "idle"))

def specStart (g : Gantt) (a : String) : Option Int :=
  (pidIntervals g a).head?.map (fun iv => iv.2.1)

def specCompletion (g : Gantt) (a : String) : Option Int :=
  (pidIntervals g a).getLast?.map (fun iv => iv.2.2)

def specRow (g : Gantt) (d : Desc) : Row :=
  match specStart g d.pid, specCompletion g d.pid with
  | some s, some e =>
    { pid := d.pid, arrival := d.arrival, burst := d.burst, priority := d.priority,
      start := some s, completion := some e,
      tat := some (e - d.arrival), wt := some (e - d.arrival - d.burst),
      rt := some (s - d.arrival) }
  | _, _ =>
    { pid := d.pid, arrival := d.arrival, burst := d.burst, priority := d.priority,
      start := none, completion := none, tat := none, wt := none, rt := none }

/-! ## Claim C8 statement bundles: characterisation of one loop iteration.

Each bundle says, for a single non-halted iteration: (1) the iteration
records an idle-actor interval iff the engine's ready structure (and, for
the preemptive loop, the running process) is empty after admission while
some process has not yet arrived; (2) in that case the recorded interval is
exactly `(idle, time, nxt)` where `nxt` is the earliest arrival among the
not-yet-arrived processes, and the clock jumps there; (3) otherwise a
process with an input pid (never the `idle` sentinel), already arrived,
executes and accounts for the whole clock advance. -/

def NPIdleSpec (le : Proc → Proc → Bool) (l0 : List Proc) (s : NPState) : Prop :=
  ((∃ iv ∈ (npStep le s).gantt, iv ∉ s.gantt ∧ iv.1 = "idle") ↔
    (s.ready ++ admitted s.time s.rem = [] ∧ notYet s.time s.rem ≠ [])) ∧
  (s.ready ++ admitted s.time s.rem = [] → notYet s.time s.rem ≠ [] →
    (npStep le s).gantt = s.gantt ++
      [("idle", s.time, earliestArrival (notYet s.time s.rem))] ∧
    s.time < earliestArrival (notYet s.time s.rem) ∧
    notYet s.time s.rem = notArrived l0 s.time ∧
    (∀ p ∈ notYet s.time s.rem, earliestArrival (notYet s.time s.rem) ≤ p.arrival) ∧
    (∃ p ∈ notYet s.time s.rem, p.arrival = earliestArrival (notYet s.time s.rem)) ∧
    (npStep le s).time = earliestArrival (notYet s.time s.rem)) ∧
  (s.ready ++ admitted s.time s.rem ≠ [] →
    ∃ p rest2, sortK le (s.ready ++ admitted s.time s.rem) = p :: rest2 ∧
      (npStep le s).gantt = s.gantt ++ [(p.pid, s.time, s.time + p.burst)] ∧
      p.pid ≠ "idle" ∧ p.arrival ≤ s.time ∧ 0 < p.burst ∧
      (npStep le s).time = s.time + p.burst)

def RRIdleSpec (q : Int) (l0 : List Proc) (s : RRState) : Prop :=
  ((∃ iv ∈ (rrStep q s).gantt, iv ∉ s.gantt ∧ iv.1 = "idle") ↔
    (s.queue ++ admitted s.time s.rem = [] ∧ notYet s.time s.rem ≠ [])) ∧
  (s.queue ++ admitted s.time s.rem = [] → notYet s.time s.rem ≠ [] →
    (rrStep q s).gantt = s.gantt ++
      [("idle", s.time, earliestArrival (notYet s.time s.rem))] ∧
    s.time < earliestArrival (notYet s.time s.rem) ∧
    notYet s.time s.rem = notArrived l0 s.time ∧
    (∀ p ∈ notYet s.time s.rem, earliestArrival (notYet s.time s.rem) ≤ p.arrival) ∧
    (∃ p ∈ notYet s.time s.rem, p.arrival = earliestArrival (notYet s.time s.rem)) ∧
    (rrStep q s).time = earliestArrival (notYet s.time s.rem)) ∧
  (s.queue ++ admitted s.time s.rem ≠ [] →
    ∃ p queue2, s.queue ++ admitted s.time s.rem = p :: queue2 ∧
      (rrStep q s).gantt = s.gantt ++ [(p.pid, s.time, s.time + min q p.remaining)] ∧
      p.pid ≠ "idle" ∧ p.arrival ≤ s.time ∧ 0 < min q p.remaining ∧
      (rrStep q s).time = s.time + min q p.remaining)

def PreIdleSpec (le : Proc → Proc → Bool) (l0 : List Proc) (s : PreState) : Prop :=
  ((∃ iv ∈ (preStep le s).gantt, iv ∉ s.gantt ∧ iv.1 = "idle") ↔
    ((s.ready ++ admitted s.time s.rem) ++ curList s.cur = [] ∧
      notYet s.time s.rem ≠ [])) ∧
  ((s.ready ++ admitted s.time s.rem) ++ curList s.cur = [] →
    notYet s.time s.rem ≠ [] →
    (preStep le s).gantt = s.gantt ++
      [("idle", s.time, earliestArrival (notYet s.time s.rem))] ∧
    s.time < earliestArrival (notYet s.time s.rem) ∧
    notYet s.time s.rem = notArrived l0 s.time ∧
    (∀ p ∈ notYet s.time s.rem, earliestArrival (notYet s.time s.rem) ≤ p.arrival) ∧
    (∃ p ∈ notYet s.time s.rem, p.arrival = earliestArrival (notYet s.time s.rem)) ∧
    (preStep le s).time = earliestArrival (notYet s.time s.rem)) ∧
  ((s.ready ++ admitted s.time s.rem) ++ curList s.cur ≠ [] →
    ∃ chosen rest2,
      sortK le ((s.ready ++ admitted s.time s.rem) ++ curList s.cur) = chosen :: rest2 ∧
      (preStep le s).time = s.time + 1 ∧ chosen.pid ≠ "idle" ∧
      chosen.arrival ≤ s.time ∧ 0 < chosen.remaining ∧
      (∃ ist1, ist1 ≤ s.time ∧
        ((preStep le s).cur =
            some ({ chosen with remaining := chosen.remaining - 1 }, ist1) ∨
          (chosen.pid, ist1, s.time + 1) ∈ (preStep le s).gantt)) ∧
      (∀ iv ∈ (preStep le s).gantt, iv ∉ s.gantt → iv.1 ≠ "idle"))

def FcfsIdleSpec (p : Proc) (rest : List Proc) (t : Int) : Prop :=
  (admitted t (p :: rest) = [] ↔ t < p.arrival) ∧
  (t < p.arrival →
    fcfsGo (p :: rest) t =
      ("idle", t, p.arrival) :: (p.pid, p.arrival, p.arrival + p.burst) ::
        fcfsGo rest (p.arrival + p.burst) ∧
    notYet t (p :: rest) = p :: rest ∧
    p.arrival = earliestArrival (notYet t (p :: rest))) ∧
  (¬ t < p.arrival →
    fcfsGo (p :: rest) t = (p.pid, t, t + p.burst) :: fcfsGo rest (t + p.burst) ∧
    p.pid ≠ "idle" ∧ p.arrival ≤ t)

/-! ## Helper lemmas for claim C1: the round-robin loop with `quantum = 0`
never makes progress. -/

/-- With `quantum = 0` the dequeued process runs for `min 0 1 = 0` ticks, a
zero-length interval is appended, and the process is re-enqueued unchanged. -/
theorem rrStep_zero_loop (g : Gantt) :
    rrStep 0 ⟨0, g, [⟨"P1", 0, 1, 0, 1⟩], []⟩ =
      ⟨0, g ++ [("P1", 0, 0)], [⟨"P1", 0, 1, 0, 1⟩], []⟩ := rfl

theorem rrRun_zero_loop : ∀ (fuel : Nat) (g : Gantt),
    rrRun 0 fuel ⟨0, g, [⟨"P1", 0, 1, 0, 1⟩], []⟩ = none := by
  intro fuel
  induction fuel with
  | zero => intro g; rfl
  | succ n ih =>
    intro g
    have h1 : rrHalted ⟨0, g, [⟨"P1", 0, 1, 0, 1⟩], []⟩ = false := rfl
    simp only [rrRun, h1, Bool.false_eq_true, if_false]
    rw [rrStep_zero_loop g]
    exact ih (g ++ [("P1", 0, 0)])

end CPUSched

namespace CPUSched

/-- C1: the claim is false of the code and marks a code bug.  There is no
validation of `quantum` anywhere: `round_robin` with `quantum = 0` and the
single process `(P1, arrival 0, burst 1)` loops forever (for every fuel the
loop has not terminated), and the `/simulate` dispatch passes `quantum = 0`
straight into that loop instead of rejecting the configuration — no
`InvalidConfiguration` (or any other) error value exists in the code. -/
theorem c1_rr_quantum_zero_never_rejected_and_diverges :
    (∀ fuel : Nat, round_robin fuel [mkProc "P1" 0 1 0] 0 = none) ∧
    (∀ fuel : Nat, simulate "rr" 0 fuel [⟨"P1", 0, 1, 0⟩] = none) := by
  have hrr : ∀ fuel : Nat, round_robin fuel [mkProc "P1" 0 1 0] 0 = none := by
    intro fuel
    cases fuel with
    | zero => rfl
    | succ n =>
      have h1 : rrHalted (rrInit [mkProc "P1" 0 1 0]) = false := rfl
      have h2 : rrStep 0 (rrInit [mkProc "P1" 0 1 0]) =
          ⟨0, [("P1", 0, 0)], [⟨"P1", 0, 1, 0, 1⟩], []⟩ := rfl
      show rrRun 0 (n + 1) (rrInit [mkProc "P1" 0 1 0]) = none
      simp only [rrRun, h1, Bool.false_eq_true, if_false, h2]
      exact rrRun_zero_loop n [("P1", 0, 0)]
  refine ⟨hrr, fun fuel => ?_⟩
  have h : round_robin fuel (procsOf [⟨"P1", 0, 1, 0⟩]) 0 = none := hrr fuel
  simp [simulate, selectAlgorithm, h]

/-- C1 witness: the divergence and the absence of rejection at fuel 5. -/
theorem c1_rr_quantum_zero_witness :
    round_robin 5 [mkProc "P1" 0 1 0] 0 = none ∧
    simulate "rr" 0 5 [⟨"P1", 0, 1, 0⟩] = none :=
  ⟨c1_rr_quantum_zero_never_rejected_and_diverges.1 5,
   c1_rr_quantum_zero_never_rejected_and_diverges.2 5⟩

/-- C2 counterexample: an unknown policy key is not rejected.  With the
descriptor list `[(P1, 0, 1)]` and the unknown key `bogus`, the dispatch
runs FCFS and the engine produces a full timeline and metrics, contradicting
the claim that no timeline, rows or aggregates are produced. -/
theorem c2_unknown_key_counterexample :
    selectAlgorithm "bogus" 1 (procsOf [⟨"P1", 0, 1, 0⟩]) 2 = some [("P1", 0, 1)] ∧
    (simulate "bogus" 2 1 [⟨"P1", 0, 1, 0⟩]).isSome = true ∧
    "bogus" ∉ (["fcfs", "sjf-np", "sjf-p", "rr", "priority-np", "priority-p"] : List String) := by
  decide

/-- C2 (amended): an input whose policy selector is not one of the six known
keys is not rejected; the dispatch falls back to FCFS and the engine
produces exactly the FCFS timeline, rows and aggregates. -/
theorem c2_unknown_key_falls_back_to_fcfs (alg : String)
    (h : alg ∉ (["fcfs", "sjf-np", "sjf-p", "rr", "priority-np", "priority-p"] : List String))
    (fuel : Nat) (ds : List Desc) (q : Int) :
    selectAlgorithm alg fuel (procsOf ds) q = some (fcfs (procsOf ds)) ∧
    simulate alg q fuel ds = simulate "fcfs" q fuel ds := by
  simp only [List.mem_cons, List.not_mem_nil, or_false, not_or] at h
  obtain ⟨h1, h2, h3, h4, h5, h6⟩ := h
  constructor
  · simp [selectAlgorithm, h1, h2, h3, h4, h5, h6]
  · simp [simulate, selectAlgorithm, h1, h2, h3, h4, h5, h6]

/-- C2 witness: the fallback at the concrete unknown key `bogus`. -/
theorem c2_unknown_key_falls_back_witness :
    selectAlgorithm "bogus" 3 (procsOf [⟨"P1", 0, 1, 0⟩]) 2 =
      some (fcfs (procsOf [⟨"P1", 0, 1, 0⟩])) ∧
    simulate "bogus" 2 3 [⟨"P1", 0, 1, 0⟩] = simulate "fcfs" 2 3 [⟨"P1", 0, 1, 0⟩] :=
  c2_unknown_key_falls_back_to_fcfs "bogus" (by decide) 3 [⟨"P1", 0, 1, 0⟩] 2

/-- C4: the claim is false of the code and marks a code bug.  On the
well-formed input `[(P1, arrival 0, burst 5), (P2, arrival 2, burst 1)]`
under `sjf-p`, the preemption at tick 2 closes P1's interval but never
returns P1 to the ready list, so P1 is dropped with 3 ticks of burst left:
the timeline attributes only 2 ticks to P1 although its burst is 5. -/
theorem c4_preemption_drops_remaining_burst :
    sjf_preemptive 20 [mkProc "P1" 0 5 0, mkProc "P2" 2 1 0] =
      some [("P1", 0, 2), ("P2", 2, 3)] ∧
    sumLen [("P1", 0, 2), ("P2", 2, 3)] "P1" = 2 ∧ ¬ ((2 : Int) = 5) := by
  decide

/-- C7: the claim is false of the code and marks a code bug.  On the
well-formed input `[(P1, 0, 5), (P2, 2, 1), (P3, 3, 10)]` under `sjf-p`,
P1 is preempted at tick 2 and dropped from the ready set; from tick 3 the
CPU runs P3 (remaining 10) for ten ticks while P1 — arrived, unfinished,
with remaining 3, a strictly smaller key — waits forever. -/
theorem c7_smaller_key_waits_while_larger_runs :
    sjf_preemptive 40 [mkProc "P1" 0 5 0, mkProc "P2" 2 1 0, mkProc "P3" 3 10 0] =
      some [("P1", 0, 2), ("P2", 2, 3), ("P3", 3, 13)] ∧
    ("P3", (3 : Int), (13 : Int)) ∈ [("P1", 0, 2), ("P2", 2, 3), ("P3", (3 : Int), (13 : Int))] ∧
    sumLen [("P1", 0, 2), ("P2", 2, 3), ("P3", 3, 13)] "P1" = 2 ∧
    (5 : Int) - 2 < 10 := by
  decide

/-- C9: the Round Robin scenario with quantum 2 on
`[(P1, arrival 0, burst 5), (P2, arrival 1, burst 3)]` produces exactly the
claimed timeline, and each process's timeline total equals its burst
(its `remaining` reaches 0 at its last interval). -/
theorem c9_round_robin_quantum2_scenario :
    round_robin 20 [mkProc "P1" 0 5 0, mkProc "P2" 1 3 0] 2 =
      some [("P1", 0, 2), ("P2", 2, 4), ("P1", 4, 6), ("P2", 6, 7), ("P1", 7, 8)] ∧
    sumLen [("P1", 0, 2), ("P2", 2, 4), ("P1", 4, 6), ("P2", 6, 7), ("P1", 7, 8)] "P1" = 5 ∧
    sumLen [("P1", 0, 2), ("P2", 2, 4), ("P1", 4, 6), ("P2", 6, 7), ("P1", 7, 8)] "P2" = 3 := by
  decide

/-- C6 counterexample: on a timeline whose actor `P1` is not among the
descriptors (empty descriptor list), the metrics calculator does not return
rows — the `starts[pid]` read raises `KeyError` (modelled by `none`). -/
theorem c6_unknown_actor_counterexample :
    compute_metrics_from_gantt [] [("P1", 0, 1)] = none := by
  decide

end CPUSched

namespace CPUSched

/-! ## Permutation facts about `sortK` and the admission split -/

theorem insertK_perm (le : Proc → Proc → Bool) (x : Proc) :
    ∀ l : List Proc, List.Perm (insertK le x l) (x :: l) := by
  intro l
  induction l with
  | nil => exact List.Perm.refl _
  | cons y ys ih =>
    simp only [insertK]
    cases h : le x y with
    | true => simp
    | false =>
      simp only [Bool.false_eq_true, if_false]
      exact (ih.cons y).trans (List.Perm.swap x y ys)

theorem sortK_perm (le : Proc → Proc → Bool) :
    ∀ l : List Proc, List.Perm (sortK le l) l := by
  intro l
  induction l with
  | nil => exact List.Perm.refl _
  | cons x xs ih =>
    exact (insertK_perm le x (sortK le xs)).trans (ih.cons x)

theorem sortK_eq_nil {le : Proc → Proc → Bool} {l : List Proc}
    (h : sortK le l = []) : l = [] := by
  have hp := sortK_perm le l
  rw [h] at hp
  exact hp.symm.eq_nil

theorem mem_sortK {le : Proc → Proc → Bool} {l : List Proc} {p : Proc} :
    p ∈ sortK le l ↔ p ∈ l := (sortK_perm le l).mem_iff

theorem admitted_append_notYet_perm (t : Int) (rem : List Proc) :
    List.Perm (admitted t rem ++ notYet t rem) rem :=
  List.filter_append_perm _ rem

theorem mem_admitted {t : Int} {rem : List Proc} {p : Proc} :
    p ∈ admitted t rem ↔ p ∈ rem ∧ p.arrival ≤ t := by
  simp [admitted, List.mem_filter]

theorem mem_notYet {t : Int} {rem : List Proc} {p : Proc} :
    p ∈ notYet t rem ↔ p ∈ rem ∧ t < p.arrival := by
  simp [notYet, List.mem_filter, Int.not_le]

/-- If nothing is admitted at time `t`, the remaining list is untouched. -/
theorem notYet_eq_self_of_admitted_nil {t : Int} {rem : List Proc}
    (h : admitted t rem = []) : notYet t rem = rem := by
  apply List.filter_eq_self.mpr
  intro p hp
  by_contra hc
  have : p ∈ admitted t rem := by
    rw [mem_admitted]
    refine ⟨hp, ?_⟩
    simpa using hc
  simp [h] at this

/-! ## `earliestArrival` is the minimum arrival of a nonempty list -/

theorem foldl_minArr_le (l : List Proc) : ∀ a : Int,
    (l.foldl (fun a q => min a q.arrival) a ≤ a) ∧
    ∀ p ∈ l, l.foldl (fun a q => min a q.arrival) a ≤ p.arrival := by
  induction l with
  | nil => simp
  | cons q qs ih =>
    intro a
    refine ⟨le_trans (ih (min a q.arrival)).1 (min_le_left _ _), ?_⟩
    intro p hp
    rcases List.mem_cons.mp hp with h | h
    · subst h
      exact le_trans (ih (min a p.arrival)).1 (min_le_right _ _)
    · exact (ih (min a q.arrival)).2 p h

theorem foldl_minArr_cases (l : List Proc) : ∀ a : Int,
    l.foldl (fun a q => min a q.arrival) a = a ∨
      ∃ p ∈ l, l.foldl (fun a q => min a q.arrival) a = p.arrival := by
  induction l with
  | nil => intro a; exact Or.inl rfl
  | cons q qs ih =>
    intro a
    rcases ih (min a q.arrival) with h | ⟨p, hp, h⟩
    · by_cases hm : a ≤ q.arrival
      · left
        simp only [List.foldl_cons]
        rw [h]
        exact min_eq_left hm
      · right
        refine ⟨q, List.mem_cons_self _ _, ?_⟩
        simp only [List.foldl_cons]
        rw [h]
        exact min_eq_right (le_of_not_le hm)
    · refine Or.inr ⟨p, List.mem_cons_of_mem _ hp, ?_⟩
      simp only [List.foldl_cons]
      exact h

theorem earliestArrival_le {l : List Proc} {p : Proc} (hp : p ∈ l) :
    earliestArrival l ≤ p.arrival := by
  cases l with
  | nil => cases hp
  | cons q qs =>
    rcases List.mem_cons.mp hp with h | h
    · subst h
      exact (foldl_minArr_le qs p.arrival).1
    · exact (foldl_minArr_le qs q.arrival).2 p h

theorem earliestArrival_mem {l : List Proc} (hne : l ≠ []) :
    ∃ p ∈ l, p.arrival = earliestArrival l := by
  cases l with
  | nil => exact absurd rfl hne
  | cons q qs =>
    rcases foldl_minArr_cases qs q.arrival with h | ⟨p, hp, h⟩
    · exact ⟨q, List.mem_cons_self _ _, h.symm⟩
    · exact ⟨p, List.mem_cons_of_mem _ hp, h.symm⟩

theorem lt_earliestArrival {l : List Proc} {t : Int} (hne : l ≠ [])
    (h : ∀ p ∈ l, t < p.arrival) : t < earliestArrival l := by
  obtain ⟨p, hp, he⟩ := earliestArrival_mem hne
  rw [← he]
  exact h p hp

/-! ## Structural consequences of `ChainFrom` -/

theorem chainFrom_le {a b : Int} : ∀ {g : Gantt}, ChainFrom a g b → a ≤ b := by
  intro g
  induction g generalizing a with
  | nil => intro h; exact le_of_eq h
  | cons iv rest ih =>
    obtain ⟨x, s, e⟩ := iv
    rintro ⟨hs, hlt, hc⟩
    subst hs
    exact le_trans (le_of_lt hlt) (ih hc)

theorem chainFrom_snoc {a b : Int} {g : Gantt} (h : ChainFrom a g b)
    {iv : GEntry} (hs : iv.2.1 = b) (hlt : iv.2.1 < iv.2.2) :
    ChainFrom a (g ++ [iv]) iv.2.2 := by
  induction g generalizing a with
  | nil =>
    obtain ⟨x, s, e⟩ := iv
    subst h
    exact ⟨hs, hlt, rfl⟩
  | cons jv rest ih =>
    obtain ⟨y, s, e⟩ := jv
    obtain ⟨h1, h2, h3⟩ := h
    exact ⟨h1, h2, ih h3⟩

theorem chainFrom_mem {a b : Int} : ∀ {g : Gantt}, ChainFrom a g b →
    ∀ iv ∈ g, a ≤ iv.2.1 ∧ iv.2.1 < iv.2.2 ∧ iv.2.2 ≤ b := by
  intro g
  induction g generalizing a with
  | nil => intro _ iv hiv; cases hiv
  | cons jv rest ih =>
    obtain ⟨y, s, e⟩ := jv
    rintro ⟨hs, hlt, hc⟩ iv hiv
    subst hs
    rcases List.mem_cons.mp hiv with h | h
    · subst h
      exact ⟨le_refl _, hlt, chainFrom_le hc⟩
    · obtain ⟨m1, m2, m3⟩ := ih hc iv h
      exact ⟨le_trans (le_of_lt hlt) m1, m2, m3⟩

theorem chainFrom_pairwise {a b : Int} : ∀ {g : Gantt}, ChainFrom a g b →
    List.Pairwise (fun iv jv : GEntry => iv.2.2 ≤ jv.2.1) g := by
  intro g
  induction g generalizing a with
  | nil => intro _; exact List.Pairwise.nil
  | cons jv rest ih =>
    obtain ⟨y, s, e⟩ := jv
    rintro ⟨hs, hlt, hc⟩
    exact List.Pairwise.cons (fun iv hiv => (chainFrom_mem hc iv hiv).1) (ih hc)

theorem chainFrom_pairwise_start {a b : Int} : ∀ {g : Gantt}, ChainFrom a g b →
    List.Pairwise (fun iv jv : GEntry => iv.2.1 < jv.2.1) g := by
  intro g
  induction g generalizing a with
  | nil => intro _; exact List.Pairwise.nil
  | cons jv rest ih =>
    obtain ⟨y, s, e⟩ := jv
    rintro ⟨hs, hlt, hc⟩
    refine List.Pairwise.cons (fun iv hiv => ?_) (ih hc)
    exact lt_of_lt_of_le hlt (chainFrom_mem hc iv hiv).1

theorem chainFrom_cover {a b : Int} : ∀ {g : Gantt}, ChainFrom a g b →
    ∀ t : Int, a ≤ t → t < b → ∃ iv ∈ g, iv.2.1 ≤ t ∧ t < iv.2.2 := by
  intro g
  induction g generalizing a with
  | nil =>
    intro h t h1 h2
    subst h
    exact absurd h2 (not_lt_of_le h1)
  | cons jv rest ih =>
    obtain ⟨y, s, e⟩ := jv
    rintro ⟨hs, hlt, hc⟩ t h1 h2
    subst hs
    by_cases he : t < e
    · exact ⟨(y, s, e), List.mem_cons_self _ _, h1, he⟩
    · obtain ⟨iv, hiv, hcov⟩ := ih hc t (le_of_not_lt he) h2
      exact ⟨iv, List.mem_cons_of_mem _ hiv, hcov⟩

theorem chainFrom_last {a b : Int} : ∀ {g : Gantt}, ChainFrom a g b → g ≠ [] →
    ∃ iv : GEntry, g.getLast? = some iv ∧ iv.2.2 = b := by
  intro g
  induction g generalizing a with
  | nil => intro _ h; exact absurd rfl h
  | cons jv rest ih =>
    obtain ⟨y, s, e⟩ := jv
    rintro ⟨hs, hlt, hc⟩ _
    cases rest with
    | nil =>
      exact ⟨(y, s, e), rfl, hc⟩
    | cons kv rest2 =>
      obtain ⟨iv, hlast, hend⟩ := ih hc (by simp)
      refine ⟨iv, ?_, hend⟩
      rw [List.getLast?_cons_cons]
      exact hlast

theorem chainFrom_ganttEnd {g : Gantt} {T : Int} (h : ChainFrom 0 g T) :
    ChainFrom 0 g (ganttEnd g) := by
  cases hg : g with
  | nil => exact rfl
  | cons iv rest =>
    rw [← hg]
    obtain ⟨jv, hlast, hend⟩ := chainFrom_last h (by rw [hg]; simp)
    have : ganttEnd g = T := by
      obtain ⟨x, s, e⟩ := jv
      simp only [ganttEnd, hlast]
      exact hend
    rw [this]
    exact h

/-- Everything claim C3 asserts follows from the chain property plus the
actor classification. -/
theorem chainFrom_timelineOK {pids : List String} {g : Gantt} {T : Int}
    (h : ChainFrom 0 g T)
    (hact : ∀ iv ∈ g, iv.1 = "idle" ∨ iv.1 ∈ pids) : TimelineOK pids g := by
  have hg := chainFrom_ganttEnd h
  refine ⟨hg, ?_, chainFrom_pairwise hg, chainFrom_pairwise_start hg,
    chainFrom_cover hg, hact⟩
  intro iv hiv
  exact (chainFrom_mem hg iv hiv).2.1

end CPUSched

namespace CPUSched

/-! ## Admission composition -/

theorem notYet_notArrived {l0 : List Proc} {τ t : Int} (h : τ ≤ t) :
    notYet t (notArrived l0 τ) = notArrived l0 t := by
  simp only [notYet, notArrived, List.filter_filter]
  apply List.filter_congr
  intro p _
  by_cases h1 : p.arrival ≤ t
  · simp [h1, show ¬ t < p.arrival from not_lt.mpr h1]
  · have h2 : τ < p.arrival := lt_of_le_of_lt h (not_le.mp h1)
    simp [h1, h2, not_le.mp h1]

/-! ## Branch characterisations of `npStep` -/

theorem npStep_stuck {le : Proc → Proc → Bool} {s : NPState}
    (hh : npHalted s = false)
    (h : sortK le (s.ready ++ admitted s.time s.rem) = []) :
    (notYet s.time s.rem).isEmpty = false := by
  have hr1 : s.ready ++ admitted s.time s.rem = [] := sortK_eq_nil h
  have hready : s.ready = [] := (List.append_eq_nil.mp hr1).1
  have hadm : admitted s.time s.rem = [] := (List.append_eq_nil.mp hr1).2
  rw [notYet_eq_self_of_admitted_nil hadm]
  cases hrem : s.rem with
  | nil =>
    rw [npHalted, hrem, hready] at hh
    simp at hh
  | cons a b => rfl

theorem npStep_idle {le : Proc → Proc → Bool} {s : NPState}
    (h : sortK le (s.ready ++ admitted s.time s.rem) = [])
    (h2 : (notYet s.time s.rem).isEmpty = false) :
    npStep le s =
      { time := earliestArrival (notYet s.time s.rem),
        gantt := s.gantt ++ [("idle", s.time, earliestArrival (notYet s.time s.rem))],
        ready := s.ready ++ admitted s.time s.rem,
        rem := notYet s.time s.rem } := by
  simp only [npStep, h, h2, Bool.false_eq_true, if_false]

theorem npStep_busy {le : Proc → Proc → Bool} {s : NPState} {p : Proc} {rest : List Proc}
    (h : sortK le (s.ready ++ admitted s.time s.rem) = p :: rest) :
    npStep le s =
      { time := s.time + p.burst,
        gantt := s.gantt ++ [(p.pid, s.time, s.time + p.burst)],
        ready := rest, rem := notYet s.time s.rem } := by
  simp only [npStep, h]

/-! ## The non-preemptive invariant -/

theorem map_reinit_pid (l : List Proc) :
    (l.map reinit).map Proc.pid = l.map Proc.pid := by
  induction l with
  | nil => rfl
  | cons p rest ih => simp only [List.map_cons, ih, reinit, mkProc]

theorem npInv_init {l : List Proc}
    (hwf : ∀ p ∈ l, 0 ≤ p.arrival ∧ 0 < p.burst) :
    NPInv (l.map reinit) (npInit l) := by
  refine ⟨rfl, ?_, ?_, ⟨-1, show (-1 : Int) ≤ 0 by norm_num, ?_⟩, ?_⟩
  · intro p hp
    cases hp
  · intro p hp
    simp only [npInit, List.nil_append] at hp
    obtain ⟨q, hq, rfl⟩ := List.mem_map.mp hp
    exact ⟨(hwf q hq).2, List.mem_map_of_mem _ (List.mem_map_of_mem _ hq)⟩
  · symm
    apply List.filter_eq_self.mpr
    intro p hp
    obtain ⟨q, hq, rfl⟩ := List.mem_map.mp hp
    have := (hwf q hq).1
    simp only [decide_eq_true_eq]
    show (-1 : Int) < (reinit q).arrival
    simp only [reinit, mkProc]
    omega
  · intro iv hiv
    cases hiv

theorem ready1_live {l0 : List Proc} {s : NPState} (hinv : NPInv l0 s) {p : Proc}
    (hp : p ∈ s.ready ++ admitted s.time s.rem) :
    (0 < p.burst ∧ p.pid ∈ l0.map Proc.pid) ∧ p.arrival ≤ s.time := by
  rcases List.mem_append.mp hp with h | h
  · exact ⟨hinv.live p (List.mem_append_left _ h), hinv.readyArr p h⟩
  · obtain ⟨hr, ha⟩ := mem_admitted.mp h
    exact ⟨hinv.live p (List.mem_append_right _ hr), ha⟩

theorem npStep_inv {le : Proc → Proc → Bool} {l0 : List Proc} {s : NPState}
    (hinv : NPInv l0 s) (hh : npHalted s = false) : NPInv l0 (npStep le s) := by
  obtain ⟨τ, hτ, hrem⟩ := hinv.remChar
  cases hsort : sortK le (s.ready ++ admitted s.time s.rem) with
  | nil =>
    have h2 := npStep_stuck hh hsort
    rw [npStep_idle hsort h2]
    have hready1 : s.ready ++ admitted s.time s.rem = [] := sortK_eq_nil hsort
    have hne : notYet s.time s.rem ≠ [] := by
      intro hn
      rw [hn] at h2
      simp at h2
    have hlt : s.time < earliestArrival (notYet s.time s.rem) :=
      lt_earliestArrival hne (fun p hp => (mem_notYet.mp hp).2)
    refine ⟨chainFrom_snoc hinv.chain rfl hlt, ?_, ?_, ⟨s.time, le_of_lt hlt, ?_⟩, ?_⟩
    · rw [hready1]
      intro p hp
      cases hp
    · intro p hp
      rw [hready1, List.nil_append] at hp
      exact hinv.live p (List.mem_append_right _ (mem_notYet.mp hp).1)
    · rw [hrem]
      exact notYet_notArrived hτ
    · intro iv hiv
      rcases List.mem_append.mp hiv with h | h
      · exact hinv.actors iv h
      · rw [List.mem_singleton.mp h]
        exact Or.inl rfl
  | cons p rest =>
    rw [npStep_busy hsort]
    have hpmem : p ∈ s.ready ++ admitted s.time s.rem := by
      apply mem_sortK.mp
      rw [hsort]
      exact List.mem_cons_self _ _
    obtain ⟨⟨hb, hpid⟩, harr⟩ := ready1_live hinv hpmem
    have htle : s.time ≤ s.time + p.burst := le_add_of_nonneg_right (le_of_lt hb)
    refine ⟨chainFrom_snoc hinv.chain rfl (show s.time < s.time + p.burst by omega), ?_, ?_,
      ⟨s.time, htle, ?_⟩, ?_⟩
    · intro jv hjv
      have : jv ∈ s.ready ++ admitted s.time s.rem := by
        apply mem_sortK.mp
        rw [hsort]
        exact List.mem_cons_of_mem _ hjv
      exact le_trans (ready1_live hinv this).2 htle
    · intro jv hjv
      rcases List.mem_append.mp hjv with h | h
      · have : jv ∈ s.ready ++ admitted s.time s.rem := by
          apply mem_sortK.mp
          rw [hsort]
          exact List.mem_cons_of_mem _ h
        exact (ready1_live hinv this).1
      · exact hinv.live jv (List.mem_append_right _ (mem_notYet.mp h).1)
    · rw [hrem]
      exact notYet_notArrived hτ
    · intro iv hiv
      rcases List.mem_append.mp hiv with h | h
      · exact hinv.actors iv h
      · rw [List.mem_singleton.mp h]
        exact Or.inr hpid

/-- A successful non-preemptive run from an invariant state yields a chained
timeline whose actors are classified. -/
theorem npRun_chain {le : Proc → Proc → Bool} {l0 : List Proc} :
    ∀ {fuel : Nat} {s : NPState} {g : Gantt}, NPInv l0 s → npRun le fuel s = some g →
      ∃ T, ChainFrom 0 g T ∧ ∀ iv ∈ g, iv.1 = "idle" ∨ iv.1 ∈ l0.map Proc.pid := by
  intro fuel
  induction fuel with
  | zero =>
    intro s g _ hrun
    simp [npRun] at hrun
  | succ n ih =>
    intro s g hinv hrun
    cases hh : npHalted s with
    | true =>
      simp only [npRun, hh, if_true] at hrun
      cases hrun
      exact ⟨s.time, hinv.chain, hinv.actors⟩
    | false =>
      simp only [npRun, hh, Bool.false_eq_true, if_false] at hrun
      exact ih (npStep_inv hinv hh) hrun

end CPUSched

namespace CPUSched

/-! ## Branch characterisations of `rrStep` and the round-robin invariant -/

theorem rrStep_stuck {s : RRState} (hh : rrHalted s = false)
    (h : s.queue ++ admitted s.time s.rem = []) :
    (notYet s.time s.rem).isEmpty = false := by
  have hqueue : s.queue = [] := (List.append_eq_nil.mp h).1
  have hadm : admitted s.time s.rem = [] := (List.append_eq_nil.mp h).2
  rw [notYet_eq_self_of_admitted_nil hadm]
  cases hrem : s.rem with
  | nil =>
    rw [rrHalted, hrem, hqueue] at hh
    simp at hh
  | cons a b => rfl

theorem rrStep_idle {q : Int} {s : RRState}
    (h : s.queue ++ admitted s.time s.rem = [])
    (h2 : (notYet s.time s.rem).isEmpty = false) :
    rrStep q s =
      { time := earliestArrival (notYet s.time s.rem),
        gantt := s.gantt ++ [("idle", s.time, earliestArrival (notYet s.time s.rem))],
        queue := [], rem := notYet s.time s.rem } := by
  simp only [rrStep, h, h2, Bool.false_eq_true, if_false]

theorem rrStep_busy {q : Int} {s : RRState} {p : Proc} {queue2 : List Proc}
    (h : s.queue ++ admitted s.time s.rem = p :: queue2)
    (hpos : ¬ p.remaining ≤ 0) :
    rrStep q s =
      { time := s.time + min q p.remaining,
        gantt := s.gantt ++ [(p.pid, s.time, s.time + min q p.remaining)],
        queue :=
          (if 0 < p.remaining - min q p.remaining
           then (queue2 ++ admitted (s.time + min q p.remaining) (notYet s.time s.rem)) ++
                  [{ p with remaining := p.remaining - min q p.remaining }]
           else queue2 ++ admitted (s.time + min q p.remaining) (notYet s.time s.rem)),
        rem := notYet (s.time + min q p.remaining) (notYet s.time s.rem) } := by
  simp only [rrStep, h, hpos, if_false]

theorem rrInv_init {l : List Proc}
    (hwf : ∀ p ∈ l, 0 ≤ p.arrival ∧ 0 < p.burst) :
    RRInv (l.map reinit) (rrInit l) := by
  refine ⟨rfl, ?_, ?_, ⟨-1, show (-1 : Int) ≤ 0 by norm_num, ?_⟩, ?_⟩
  · intro p hp
    cases hp
  · intro p hp
    simp only [rrInit, List.nil_append] at hp
    obtain ⟨q, hq, rfl⟩ := List.mem_map.mp hp
    refine ⟨?_, List.mem_map_of_mem _ (List.mem_map_of_mem _ hq)⟩
    show 0 < q.burst
    exact (hwf q hq).2
  · symm
    apply List.filter_eq_self.mpr
    intro p hp
    obtain ⟨q, hq, rfl⟩ := List.mem_map.mp hp
    have := (hwf q hq).1
    simp only [decide_eq_true_eq]
    show (-1 : Int) < (reinit q).arrival
    simp only [reinit, mkProc]
    omega
  · intro iv hiv
    cases hiv

theorem queue1_live {l0 : List Proc} {s : RRState} (hinv : RRInv l0 s) {p : Proc}
    (hp : p ∈ s.queue ++ admitted s.time s.rem) :
    (0 < p.remaining ∧ p.pid ∈ l0.map Proc.pid) ∧ p.arrival ≤ s.time := by
  rcases List.mem_append.mp hp with h | h
  · exact ⟨hinv.live p (List.mem_append_left _ h), hinv.queueArr p h⟩
  · obtain ⟨hr, ha⟩ := mem_admitted.mp h
    exact ⟨hinv.live p (List.mem_append_right _ hr), ha⟩

theorem rrStep_inv {q : Int} {l0 : List Proc} {s : RRState} (hq : 0 < q)
    (hinv : RRInv l0 s) (hh : rrHalted s = false) : RRInv l0 (rrStep q s) := by
  obtain ⟨τ, hτ, hrem⟩ := hinv.remChar
  cases hqueue : s.queue ++ admitted s.time s.rem with
  | nil =>
    have h2 := rrStep_stuck hh hqueue
    rw [rrStep_idle hqueue h2]
    have hne : notYet s.time s.rem ≠ [] := by
      intro hn
      rw [hn] at h2
      simp at h2
    have hlt : s.time < earliestArrival (notYet s.time s.rem) :=
      lt_earliestArrival hne (fun p hp => (mem_notYet.mp hp).2)
    refine ⟨chainFrom_snoc hinv.chain rfl hlt, ?_, ?_, ⟨s.time, le_of_lt hlt, ?_⟩, ?_⟩
    · intro p hp
      cases hp
    · intro p hp
      rw [List.nil_append] at hp
      exact hinv.live p (List.mem_append_right _ (mem_notYet.mp hp).1)
    · rw [hrem]
      exact notYet_notArrived hτ
    · intro iv hiv
      rcases List.mem_append.mp hiv with h | h
      · exact hinv.actors iv h
      · rw [List.mem_singleton.mp h]
        exact Or.inl rfl
  | cons p queue2 =>
    have hpmem : p ∈ s.queue ++ admitted s.time s.rem := by
      rw [hqueue]
      exact List.mem_cons_self _ _
    obtain ⟨⟨hprem, hpid⟩, harr⟩ := queue1_live hinv hpmem
    have hpos : ¬ p.remaining ≤ 0 := not_le.mpr hprem
    rw [rrStep_busy hqueue hpos]
    have hrun : 0 < min q p.remaining := lt_min_iff.mpr ⟨hq, hprem⟩
    have htle : s.time ≤ s.time + min q p.remaining := by omega
    have hrem1 : notYet s.time s.rem = notArrived l0 s.time := by
      rw [hrem]
      exact notYet_notArrived hτ
    have hq2 : ∀ jv ∈ queue2, jv ∈ s.queue ++ admitted s.time s.rem := by
      intro jv hjv
      rw [hqueue]
      exact List.mem_cons_of_mem _ hjv
    have hmemQ4 : ∀ jv,
        jv ∈ (if 0 < p.remaining - min q p.remaining
              then (queue2 ++ admitted (s.time + min q p.remaining) (notYet s.time s.rem)) ++
                     [{ p with remaining := p.remaining - min q p.remaining }]
              else queue2 ++ admitted (s.time + min q p.remaining) (notYet s.time s.rem)) →
          jv ∈ queue2 ∨ jv ∈ admitted (s.time + min q p.remaining) (notYet s.time s.rem) ∨
            jv = { p with remaining := p.remaining - min q p.remaining } := by
      intro jv hjv
      by_cases hc : 0 < p.remaining - min q p.remaining
      · rw [if_pos hc] at hjv
        rcases List.mem_append.mp hjv with h | h
        · rcases List.mem_append.mp h with h1 | h1
          · exact Or.inl h1
          · exact Or.inr (Or.inl h1)
        · exact Or.inr (Or.inr (List.mem_singleton.mp h))
      · rw [if_neg hc] at hjv
        rcases List.mem_append.mp hjv with h | h
        · exact Or.inl h
        · exact Or.inr (Or.inl h)
    refine ⟨chainFrom_snoc hinv.chain rfl
        (show s.time < s.time + min q p.remaining by omega), ?_, ?_,
      ⟨s.time + min q p.remaining, le_refl _, ?_⟩, ?_⟩
    · intro jv hjv
      rcases hmemQ4 jv hjv with h | h | h
      · exact le_trans (queue1_live hinv (hq2 jv h)).2 htle
      · exact (mem_admitted.mp h).2
      · rw [h]
        exact le_trans harr htle
    · intro jv hjv
      rcases List.mem_append.mp hjv with hj | hj
      · rcases hmemQ4 jv hj with h | h | h
        · exact (queue1_live hinv (hq2 jv h)).1
        · have : jv ∈ notYet s.time s.rem := (mem_admitted.mp h).1
          exact hinv.live jv (List.mem_append_right _ (mem_notYet.mp this).1)
        · subst h
          constructor
          · by_cases hc : 0 < p.remaining - min q p.remaining
            · exact hc
            · exfalso
              have hj' := hj
              rw [if_neg hc] at hj'
              rcases List.mem_append.mp hj' with h | h
              · have := (queue1_live hinv (hq2 _ h)).1.1
                simp at this
                omega
              · have : ({ p with remaining := p.remaining - min q p.remaining } : Proc)
                    ∈ notYet s.time s.rem := (mem_admitted.mp h).1
                have := (hinv.live _ (List.mem_append_right _ (mem_notYet.mp this).1)).1
                simp at this
                omega
          · exact hpid
      · have : jv ∈ notYet s.time s.rem := (mem_notYet.mp hj).1
        exact hinv.live jv (List.mem_append_right _ (mem_notYet.mp this).1)
    · rw [hrem1]
      exact notYet_notArrived htle
    · intro iv hiv
      rcases List.mem_append.mp hiv with h | h
      · exact hinv.actors iv h
      · rw [List.mem_singleton.mp h]
        exact Or.inr hpid

theorem rrRun_chain {q : Int} {l0 : List Proc} (hq : 0 < q) :
    ∀ {fuel : Nat} {s : RRState} {g : Gantt}, RRInv l0 s → rrRun q fuel s = some g →
      ∃ T, ChainFrom 0 g T ∧ ∀ iv ∈ g, iv.1 = "idle" ∨ iv.1 ∈ l0.map Proc.pid := by
  intro fuel
  induction fuel with
  | zero =>
    intro s g _ hrun
    simp [rrRun] at hrun
  | succ n ih =>
    intro s g hinv hrun
    cases hh : rrHalted s with
    | true =>
      simp only [rrRun, hh, if_true] at hrun
      cases hrun
      exact ⟨s.time, hinv.chain, hinv.actors⟩
    | false =>
      simp only [rrRun, hh, Bool.false_eq_true, if_false] at hrun
      exact ih (rrStep_inv hq hinv hh) hrun

end CPUSched

namespace CPUSched

/-! ## Branch characterisations of `preStep` and the preemptive invariant -/

theorem curList_eq_nil {o : Option (Proc × Int)} (h : curList o = []) : o = none := by
  cases o with
  | none => rfl
  | some ci => cases h

theorem preStep_stuck {le : Proc → Proc → Bool} {s : PreState} (hh : preHalted s = false)
    (h : sortK le ((s.ready ++ admitted s.time s.rem) ++ curList s.cur) = []) :
    (notYet s.time s.rem).isEmpty = false := by
  have h1 := sortK_eq_nil h
  have hready : s.ready = [] := (List.append_eq_nil.mp (List.append_eq_nil.mp h1).1).1
  have hadm : admitted s.time s.rem = [] :=
    (List.append_eq_nil.mp (List.append_eq_nil.mp h1).1).2
  have hcur : s.cur = none := curList_eq_nil (List.append_eq_nil.mp h1).2
  rw [notYet_eq_self_of_admitted_nil hadm]
  cases hrem : s.rem with
  | nil =>
    rw [preHalted, hrem, hready, hcur] at hh
    simp at hh
  | cons a b => rfl

theorem preStep_idle {le : Proc → Proc → Bool} {s : PreState}
    (h : sortK le ((s.ready ++ admitted s.time s.rem) ++ curList s.cur) = [])
    (h2 : (notYet s.time s.rem).isEmpty = false) :
    preStep le s =
      { time := earliestArrival (notYet s.time s.rem),
        gantt := s.gantt ++ [("idle", s.time, earliestArrival (notYet s.time s.rem))],
        ready := s.ready ++ admitted s.time s.rem,
        rem := notYet s.time s.rem, cur := s.cur } := by
  simp only [preStep, h, h2, Bool.false_eq_true, if_false]

theorem preStep_busy {le : Proc → Proc → Bool} {s : PreState} {chosen : Proc}
    {rest : List Proc}
    (h : sortK le ((s.ready ++ admitted s.time s.rem) ++ curList s.cur) = chosen :: rest) :
    preStep le s = preExec s chosen := by
  simp only [preStep, h]

theorem preInv_init {l : List Proc}
    (hwf : ∀ p ∈ l, 0 ≤ p.arrival ∧ 0 < p.burst) :
    PreInv (l.map reinit) (preInit l) := by
  refine ⟨fun _ => rfl, ?_, ?_, ?_, ?_,
    ⟨-1, show (-1 : Int) ≤ 0 by norm_num, ?_⟩, ?_⟩
  · intro c ist h
    exact Option.noConfusion h
  · intro p hp
    cases hp
  · intro c ist h
    exact Option.noConfusion h
  · intro p hp
    simp only [preInit, curList, List.append_nil, List.nil_append] at hp
    obtain ⟨q, hq, rfl⟩ := List.mem_map.mp hp
    refine ⟨?_, List.mem_map_of_mem _ (List.mem_map_of_mem _ hq)⟩
    show 0 < q.burst
    exact (hwf q hq).2
  · symm
    apply List.filter_eq_self.mpr
    intro p hp
    obtain ⟨q, hq, rfl⟩ := List.mem_map.mp hp
    have := (hwf q hq).1
    simp only [decide_eq_true_eq]
    show (-1 : Int) < (reinit q).arrival
    simp only [reinit, mkProc]
    omega
  · intro iv hiv
    cases hiv

theorem cands_live {l0 : List Proc} {s : PreState} (hinv : PreInv l0 s) {p : Proc}
    (hp : p ∈ (s.ready ++ admitted s.time s.rem) ++ curList s.cur) :
    (0 < p.remaining ∧ p.pid ∈ l0.map Proc.pid) ∧ p.arrival ≤ s.time := by
  rcases List.mem_append.mp hp with h | h
  · rcases List.mem_append.mp h with h1 | h1
    · refine ⟨hinv.live p ?_, hinv.readyArr p h1⟩
      exact List.mem_append_left _ (List.mem_append_left _ h1)
    · obtain ⟨hr, ha⟩ := mem_admitted.mp h1
      refine ⟨hinv.live p ?_, ha⟩
      exact List.mem_append_left _ (List.mem_append_right _ hr)
  · cases hcur : s.cur with
    | none =>
      rw [hcur] at h
      cases h
    | some ci =>
      obtain ⟨c, ist⟩ := ci
      rw [hcur] at h
      rw [List.mem_singleton.mp h]
      refine ⟨hinv.live c ?_, hinv.curArr c ist hcur⟩
      rw [show curList s.cur = [c] from by rw [hcur]; rfl] at hp ⊢
      exact List.mem_append_right _ (List.mem_singleton_self c)

end CPUSched

namespace CPUSched

theorem preExec_cur_none {s : PreState} {chosen : Proc} (hcur : s.cur = none) :
    preExec s chosen =
      if chosen.remaining - 1 = 0 then
        { time := s.time + 1,
          gantt := s.gantt ++ [(chosen.pid, s.time, s.time + 1)],
          ready := (s.ready ++ admitted s.time s.rem).erase chosen,
          rem := notYet s.time s.rem, cur := none }
      else
        { time := s.time + 1, gantt := s.gantt,
          ready := (s.ready ++ admitted s.time s.rem).erase chosen,
          rem := notYet s.time s.rem,
          cur := some ({ chosen with remaining := chosen.remaining - 1 }, s.time) } := by
  simp only [preExec, hcur]

theorem preExec_cur_same {s : PreState} {chosen c : Proc} {ist : Int}
    (hcur : s.cur = some (c, ist)) (hpe : chosen.pid = c.pid) :
    preExec s chosen =
      if chosen.remaining - 1 = 0 then
        { time := s.time + 1,
          gantt := s.gantt ++ [(chosen.pid, ist, s.time + 1)],
          ready := (s.ready ++ admitted s.time s.rem).erase chosen,
          rem := notYet s.time s.rem, cur := none }
      else
        { time := s.time + 1, gantt := s.gantt,
          ready := (s.ready ++ admitted s.time s.rem).erase chosen,
          rem := notYet s.time s.rem,
          cur := some ({ chosen with remaining := chosen.remaining - 1 }, ist) } := by
  simp only [preExec, hcur, hpe, ne_eq, not_true_eq_false, if_false, if_true]

theorem preExec_cur_diff {s : PreState} {chosen c : Proc} {ist : Int}
    (hcur : s.cur = some (c, ist)) (hpe : ¬ chosen.pid = c.pid) :
    preExec s chosen =
      if chosen.remaining - 1 = 0 then
        { time := s.time + 1,
          gantt := (s.gantt ++ [(c.pid, ist, s.time)]) ++ [(chosen.pid, s.time, s.time + 1)],
          ready := (s.ready ++ admitted s.time s.rem).erase chosen,
          rem := notYet s.time s.rem, cur := none }
      else
        { time := s.time + 1, gantt := s.gantt ++ [(c.pid, ist, s.time)],
          ready := (s.ready ++ admitted s.time s.rem).erase chosen,
          rem := notYet s.time s.rem,
          cur := some ({ chosen with remaining := chosen.remaining - 1 }, s.time) } := by
  simp only [preExec, hcur, ne_eq, hpe, not_false_eq_true, if_true, if_false]

/-- Execution facts for a single preemptive busy step: the invariant is
preserved, the clock advances one tick, the tick belongs to the chosen
process (which either remains running from an earlier start `ist1 ≤ time`,
or has its interval ending at `time + 1` recorded), and every newly recorded
interval carries an input pid. -/
theorem preExec_facts {le : Proc → Proc → Bool} {l0 : List Proc} {s : PreState}
    {chosen : Proc} {rest : List Proc}
    (hinv : PreInv l0 s)
    (hsort : sortK le ((s.ready ++ admitted s.time s.rem) ++ curList s.cur) = chosen :: rest) :
    PreInv l0 (preExec s chosen) ∧
    (preExec s chosen).time = s.time + 1 ∧
    (∃ ist1 : Int, ist1 ≤ s.time ∧
      ((preExec s chosen).cur = some ({ chosen with remaining := chosen.remaining - 1 }, ist1) ∨
        (chosen.pid, ist1, s.time + 1) ∈ (preExec s chosen).gantt)) ∧
    (∀ iv ∈ (preExec s chosen).gantt, iv ∉ s.gantt → iv.1 ∈ l0.map Proc.pid) := by
  have hchosen : chosen ∈ (s.ready ++ admitted s.time s.rem) ++ curList s.cur := by
    apply mem_sortK.mp
    rw [hsort]
    exact List.mem_cons_self _ _
  obtain ⟨⟨hcrem, hcpid⟩, hcarr⟩ := cands_live hinv hchosen
  obtain ⟨τ, hτ, hrem⟩ := hinv.remChar
  have hremChar : notYet s.time s.rem = notArrived l0 s.time := by
    rw [hrem]
    exact notYet_notArrived hτ
  have hreadyArr' : ∀ p ∈ (s.ready ++ admitted s.time s.rem).erase chosen,
      p.arrival ≤ s.time + 1 := by
    intro p hp
    have h1 := List.mem_of_mem_erase hp
    have := (cands_live hinv (List.mem_append_left _ h1)).2
    omega
  have hliveRR : ∀ p ∈ (s.ready ++ admitted s.time s.rem).erase chosen ++ notYet s.time s.rem,
      0 < p.remaining ∧ p.pid ∈ l0.map Proc.pid := by
    intro p hp
    rcases List.mem_append.mp hp with h | h
    · exact (cands_live hinv (List.mem_append_left _ (List.mem_of_mem_erase h))).1
    · exact hinv.live p (List.mem_append_left _ (List.mem_append_right _ (mem_notYet.mp h).1))
  cases hcur : s.cur with
  | none =>
    rw [preExec_cur_none hcur]
    by_cases hc0 : chosen.remaining - 1 = 0
    · rw [if_pos hc0]
      refine ⟨⟨?_, ?_, ?_, ?_, ?_, ⟨s.time, show s.time ≤ s.time + 1 by omega, hremChar⟩, ?_⟩, rfl,
        ⟨s.time, le_refl _, Or.inr (List.mem_append_right _ (List.mem_singleton_self _))⟩, ?_⟩
      · intro _
        exact chainFrom_snoc (hinv.chain_none hcur) rfl (show s.time < s.time + 1 by omega)
      · intro c ist h
        exact Option.noConfusion h
      · exact hreadyArr'
      · intro c ist h
        exact Option.noConfusion h
      · intro p hp
        rcases List.mem_append.mp hp with h | h
        · exact hliveRR p h
        · simp [curList] at h
      · intro iv hiv
        rcases List.mem_append.mp hiv with h | h
        · exact hinv.actors iv h
        · rw [List.mem_singleton.mp h]
          exact Or.inr hcpid
      · intro iv hiv hnot
        rcases List.mem_append.mp hiv with h | h
        · exact absurd h hnot
        · rw [List.mem_singleton.mp h]
          exact hcpid
    · rw [if_neg hc0]
      refine ⟨⟨?_, ?_, ?_, ?_, ?_, ⟨s.time, show s.time ≤ s.time + 1 by omega, hremChar⟩, hinv.actors⟩, rfl,
        ⟨s.time, le_refl _, Or.inl rfl⟩, ?_⟩
      · intro h
        exact Option.noConfusion h
      · intro c ist h
        simp only [Option.some.injEq, Prod.mk.injEq] at h
        obtain ⟨h1, h2⟩ := h
        subst h2
        exact ⟨hinv.chain_none hcur, show s.time < s.time + 1 by omega⟩
      · exact hreadyArr'
      · intro c ist h
        simp only [Option.some.injEq, Prod.mk.injEq] at h
        obtain ⟨h1, h2⟩ := h
        rw [← h1]
        show chosen.arrival ≤ s.time + 1
        omega
      · intro p hp
        rcases List.mem_append.mp hp with h | h
        · exact hliveRR p h
        · simp only [curList, List.mem_singleton] at h
          rw [h]
          refine ⟨?_, hcpid⟩
          show 0 < chosen.remaining - 1
          omega
      · intro iv hiv hnot
        exact absurd hiv hnot
  | some ci =>
    obtain ⟨c, ist⟩ := ci
    obtain ⟨chainOld, histlt⟩ := hinv.chain_some c ist hcur
    have hcOld : 0 < c.remaining ∧ c.pid ∈ l0.map Proc.pid := by
      apply hinv.live c
      apply List.mem_append_right
      rw [show curList s.cur = [c] from by rw [hcur]; rfl]
      exact List.mem_singleton_self c
    by_cases hpe : chosen.pid = c.pid
    · rw [preExec_cur_same hcur hpe]
      by_cases hc0 : chosen.remaining - 1 = 0
      · rw [if_pos hc0]
        refine ⟨⟨?_, ?_, ?_, ?_, ?_, ⟨s.time, show s.time ≤ s.time + 1 by omega, hremChar⟩, ?_⟩, rfl,
          ⟨ist, le_of_lt histlt, Or.inr (List.mem_append_right _ (List.mem_singleton_self _))⟩, ?_⟩
        · intro _
          exact chainFrom_snoc chainOld rfl (show ist < s.time + 1 by omega)
        · intro c' ist' h
          exact Option.noConfusion h
        · exact hreadyArr'
        · intro c' ist' h
          exact Option.noConfusion h
        · intro p hp
          rcases List.mem_append.mp hp with h | h
          · exact hliveRR p h
          · simp [curList] at h
        · intro iv hiv
          rcases List.mem_append.mp hiv with h | h
          · exact hinv.actors iv h
          · rw [List.mem_singleton.mp h]
            exact Or.inr hcpid
        · intro iv hiv hnot
          rcases List.mem_append.mp hiv with h | h
          · exact absurd h hnot
          · rw [List.mem_singleton.mp h]
            exact hcpid
      · rw [if_neg hc0]
        refine ⟨⟨?_, ?_, ?_, ?_, ?_, ⟨s.time, show s.time ≤ s.time + 1 by omega, hremChar⟩, hinv.actors⟩, rfl,
          ⟨ist, le_of_lt histlt, Or.inl rfl⟩, ?_⟩
        · intro h
          exact Option.noConfusion h
        · intro c' ist' h
          simp only [Option.some.injEq, Prod.mk.injEq] at h
          obtain ⟨h1, h2⟩ := h
          subst h2
          exact ⟨chainOld, show ist < s.time + 1 by omega⟩
        · exact hreadyArr'
        · intro c' ist' h
          simp only [Option.some.injEq, Prod.mk.injEq] at h
          obtain ⟨h1, h2⟩ := h
          rw [← h1]
          show chosen.arrival ≤ s.time + 1
          omega
        · intro p hp
          rcases List.mem_append.mp hp with h | h
          · exact hliveRR p h
          · simp only [curList, List.mem_singleton] at h
            rw [h]
            refine ⟨?_, hcpid⟩
            show 0 < chosen.remaining - 1
            omega
        · intro iv hiv hnot
          exact absurd hiv hnot
    · rw [preExec_cur_diff hcur hpe]
      have chain1 : ChainFrom 0 (s.gantt ++ [(c.pid, ist, s.time)]) s.time :=
        chainFrom_snoc chainOld rfl histlt
      have hactors1 : ∀ iv ∈ s.gantt ++ [(c.pid, ist, s.time)],
          iv.1 = "idle" ∨ iv.1 ∈ l0.map Proc.pid := by
        intro iv hiv
        rcases List.mem_append.mp hiv with h | h
        · exact hinv.actors iv h
        · rw [List.mem_singleton.mp h]
          exact Or.inr hcOld.2
      by_cases hc0 : chosen.remaining - 1 = 0
      · rw [if_pos hc0]
        refine ⟨⟨?_, ?_, ?_, ?_, ?_, ⟨s.time, show s.time ≤ s.time + 1 by omega, hremChar⟩, ?_⟩, rfl,
          ⟨s.time, le_refl _, Or.inr (List.mem_append_right _ (List.mem_singleton_self _))⟩, ?_⟩
        · intro _
          exact chainFrom_snoc chain1 rfl (show s.time < s.time + 1 by omega)
        · intro c' ist' h
          exact Option.noConfusion h
        · exact hreadyArr'
        · intro c' ist' h
          exact Option.noConfusion h
        · intro p hp
          rcases List.mem_append.mp hp with h | h
          · exact hliveRR p h
          · simp [curList] at h
        · intro iv hiv
          rcases List.mem_append.mp hiv with h | h
          · exact hactors1 iv h
          · rw [List.mem_singleton.mp h]
            exact Or.inr hcpid
        · intro iv hiv hnot
          rcases List.mem_append.mp hiv with h | h
          · rcases List.mem_append.mp h with h1 | h1
            · exact absurd h1 hnot
            · rw [List.mem_singleton.mp h1]
              exact hcOld.2
          · rw [List.mem_singleton.mp h]
            exact hcpid
      · rw [if_neg hc0]
        refine ⟨⟨?_, ?_, ?_, ?_, ?_, ⟨s.time, show s.time ≤ s.time + 1 by omega, hremChar⟩, hactors1⟩, rfl,
          ⟨s.time, le_refl _, Or.inl rfl⟩, ?_⟩
        · intro h
          exact Option.noConfusion h
        · intro c' ist' h
          simp only [Option.some.injEq, Prod.mk.injEq] at h
          obtain ⟨h1, h2⟩ := h
          subst h2
          exact ⟨chain1, show s.time < s.time + 1 by omega⟩
        · exact hreadyArr'
        · intro c' ist' h
          simp only [Option.some.injEq, Prod.mk.injEq] at h
          obtain ⟨h1, h2⟩ := h
          rw [← h1]
          show chosen.arrival ≤ s.time + 1
          omega
        · intro p hp
          rcases List.mem_append.mp hp with h | h
          · exact hliveRR p h
          · simp only [curList, List.mem_singleton] at h
            rw [h]
            refine ⟨?_, hcpid⟩
            show 0 < chosen.remaining - 1
            omega
        · intro iv hiv hnot
          rcases List.mem_append.mp hiv with h | h
          · exact absurd h hnot
          · rw [List.mem_singleton.mp h]
            exact hcOld.2

end CPUSched

namespace CPUSched

theorem preStep_inv {le : Proc → Proc → Bool} {l0 : List Proc} {s : PreState}
    (hinv : PreInv l0 s) (hh : preHalted s = false) : PreInv l0 (preStep le s) := by
  obtain ⟨τ, hτ, hrem⟩ := hinv.remChar
  cases hsort : sortK le ((s.ready ++ admitted s.time s.rem) ++ curList s.cur) with
  | nil =>
    have h2 := preStep_stuck hh hsort
    rw [preStep_idle hsort h2]
    have h1 := sortK_eq_nil hsort
    have hready1 : s.ready ++ admitted s.time s.rem = [] := (List.append_eq_nil.mp h1).1
    have hcur : s.cur = none := curList_eq_nil (List.append_eq_nil.mp h1).2
    have hne : notYet s.time s.rem ≠ [] := by
      intro hn
      rw [hn] at h2
      simp at h2
    have hlt : s.time < earliestArrival (notYet s.time s.rem) :=
      lt_earliestArrival hne (fun p hp => (mem_notYet.mp hp).2)
    refine ⟨?_, ?_, ?_, ?_, ?_, ⟨s.time, le_of_lt hlt, ?_⟩, ?_⟩
    · intro _
      exact chainFrom_snoc (hinv.chain_none hcur) rfl hlt
    · intro c ist h
      have h' : s.cur = some (c, ist) := h
      rw [hcur] at h'
      exact Option.noConfusion h'
    · intro p hp
      have hp' : p ∈ s.ready ++ admitted s.time s.rem := hp
      rw [hready1] at hp'
      cases hp'
    · intro c ist h
      have h' : s.cur = some (c, ist) := h
      rw [hcur] at h'
      exact Option.noConfusion h'
    · intro p hp
      have hp' : p ∈ (s.ready ++ admitted s.time s.rem) ++ notYet s.time s.rem
          ++ curList s.cur := hp
      rw [hready1, hcur] at hp'
      simp only [List.nil_append, curList, List.append_nil] at hp'
      exact hinv.live p
        (List.mem_append_left _ (List.mem_append_right _ (mem_notYet.mp hp').1))
    · show notYet s.time s.rem = notArrived l0 s.time
      rw [hrem]
      exact notYet_notArrived hτ
    · intro iv hiv
      have hiv' : iv ∈ s.gantt ++
          [("idle", s.time, earliestArrival (notYet s.time s.rem))] := hiv
      rcases List.mem_append.mp hiv' with h | h
      · exact hinv.actors iv h
      · rw [List.mem_singleton.mp h]
        exact Or.inl rfl
  | cons chosen rest =>
    rw [preStep_busy hsort]
    exact (preExec_facts hinv hsort).1

theorem preHalted_cur_none {s : PreState} (hh : preHalted s = true) : s.cur = none := by
  rw [preHalted] at hh
  simp only [Bool.and_eq_true] at hh
  exact Option.isNone_iff_eq_none.mp hh.2

theorem preRun_chain {le : Proc → Proc → Bool} {l0 : List Proc} :
    ∀ {fuel : Nat} {s : PreState} {g : Gantt}, PreInv l0 s → preRun le fuel s = some g →
      ∃ T, ChainFrom 0 g T ∧ ∀ iv ∈ g, iv.1 = "idle" ∨ iv.1 ∈ l0.map Proc.pid := by
  intro fuel
  induction fuel with
  | zero =>
    intro s g _ hrun
    simp [preRun] at hrun
  | succ n ih =>
    intro s g hinv hrun
    cases hh : preHalted s with
    | true =>
      simp only [preRun, hh, if_true] at hrun
      cases hrun
      exact ⟨s.time, hinv.chain_none (preHalted_cur_none hh), hinv.actors⟩
    | false =>
      simp only [preRun, hh, Bool.false_eq_true, if_false] at hrun
      exact ih (preStep_inv hinv hh) hrun

end CPUSched

namespace CPUSched

/-! ## FCFS produces a chained timeline -/

theorem fcfsGo_chain : ∀ (ps : List Proc) (t : Int), (∀ p ∈ ps, 0 < p.burst) →
    ∃ T, ChainFrom t (fcfsGo ps t) T := by
  intro ps
  induction ps with
  | nil =>
    intro t _
    exact ⟨t, rfl⟩
  | cons p rest ih =>
    intro t hb
    have hbp : 0 < p.burst := hb p (List.mem_cons_self _ _)
    by_cases hlt : t < p.arrival
    · obtain ⟨T, hT⟩ := ih (p.arrival + p.burst)
        (fun q hq => hb q (List.mem_cons_of_mem _ hq))
      refine ⟨T, ?_⟩
      simp only [fcfsGo]
      rw [if_pos hlt]
      exact ⟨rfl, hlt, rfl, by omega, hT⟩
    · obtain ⟨T, hT⟩ := ih (t + p.burst)
        (fun q hq => hb q (List.mem_cons_of_mem _ hq))
      refine ⟨T, ?_⟩
      simp only [fcfsGo]
      rw [if_neg hlt]
      exact ⟨rfl, by omega, hT⟩

theorem fcfsGo_actors : ∀ (ps : List Proc) (t : Int), ∀ iv ∈ fcfsGo ps t,
    iv.1 = "idle" ∨ iv.1 ∈ ps.map Proc.pid := by
  intro ps
  induction ps with
  | nil =>
    intro t iv hiv
    cases hiv
  | cons p rest ih =>
    intro t iv hiv
    simp only [fcfsGo] at hiv
    by_cases hlt : t < p.arrival
    · rw [if_pos hlt] at hiv
      rcases List.mem_cons.mp hiv with h | hiv2
      · rw [h]
        exact Or.inl rfl
      · rcases List.mem_cons.mp hiv2 with h | hiv3
        · rw [h]
          exact Or.inr (List.mem_cons_self _ _)
        · rcases ih _ iv hiv3 with h | h
          · exact Or.inl h
          · exact Or.inr (List.mem_cons_of_mem _ h)
    · rw [if_neg hlt] at hiv
      rcases List.mem_cons.mp hiv with h | hiv2
      · rw [h]
        exact Or.inr (List.mem_cons_self _ _)
      · rcases ih _ iv hiv2 with h | h
        · exact Or.inl h
        · exact Or.inr (List.mem_cons_of_mem _ h)

theorem fcfs_timelineOK {l : List Proc} (hwf : ∀ p ∈ l, 0 < p.burst) :
    TimelineOK (l.map Proc.pid) (fcfs l) := by
  obtain ⟨T, hT⟩ := fcfsGo_chain (sortK arrLe l) 0 (fun p hp => hwf p (mem_sortK.mp hp))
  apply chainFrom_timelineOK hT
  intro iv hiv
  rcases fcfsGo_actors _ _ iv hiv with h | h
  · exact Or.inl h
  · right
    obtain ⟨p, hp, he⟩ := List.mem_map.mp h
    exact he ▸ List.mem_map_of_mem _ (mem_sortK.mp hp)

/-- C3: for every one of the six policies and every well-formed input
(`arrival ≥ 0`, `burst > 0`, unique non-empty pids, positive quantum for
Round Robin), every timeline the policy returns satisfies the claimed
structure: intervals are nonempty (`start < end`), pairwise non-overlapping,
sorted by start ascending, and exactly cover `[0, maxCompletion)` with every
actor either a process pid or the `idle` sentinel — so every instant not
attributed to a process lies in an `idle` interval. -/
theorem c3_timeline_partition (l : List Proc) (q : Int) (fuel : Nat) (g : Gantt)
    (hwf : WFInput l) (hq : 0 < q) :
    (fcfs l = g → TimelineOK (l.map Proc.pid) g) ∧
    (sjf_nonpreemptive fuel l = some g → TimelineOK (l.map Proc.pid) g) ∧
    (priority_nonpreemptive fuel l = some g → TimelineOK (l.map Proc.pid) g) ∧
    (round_robin fuel l q = some g → TimelineOK (l.map Proc.pid) g) ∧
    (sjf_preemptive fuel l = some g → TimelineOK (l.map Proc.pid) g) ∧
    (priority_preemptive fuel l = some g → TimelineOK (l.map Proc.pid) g) := by
  have harr : ∀ p ∈ l, 0 ≤ p.arrival ∧ 0 < p.burst := fun p hp =>
    ⟨(hwf.1 p hp).1, (hwf.1 p hp).2.1⟩
  have hpid := map_reinit_pid l
  have hconv : ∀ {g1 : Gantt},
      (∀ iv ∈ g1, iv.1 = "idle" ∨ iv.1 ∈ (l.map reinit).map Proc.pid) →
      ∀ iv ∈ g1, iv.1 = "idle" ∨ iv.1 ∈ l.map Proc.pid := by
    intro g1 ha iv hiv
    rcases ha iv hiv with h | h
    · exact Or.inl h
    · exact Or.inr (hpid ▸ h)
  refine ⟨?_, ?_, ?_, ?_, ?_, ?_⟩
  · intro h
    rw [← h]
    exact fcfs_timelineOK (fun p hp => (hwf.1 p hp).2.1)
  · intro h
    obtain ⟨T, hc, ha⟩ := npRun_chain (npInv_init harr) h
    exact chainFrom_timelineOK hc (hconv ha)
  · intro h
    obtain ⟨T, hc, ha⟩ := npRun_chain (npInv_init harr) h
    exact chainFrom_timelineOK hc (hconv ha)
  · intro h
    obtain ⟨T, hc, ha⟩ := rrRun_chain hq (rrInv_init harr) h
    exact chainFrom_timelineOK hc (hconv ha)
  · intro h
    obtain ⟨T, hc, ha⟩ := preRun_chain (preInv_init harr) h
    exact chainFrom_timelineOK hc (hconv ha)
  · intro h
    obtain ⟨T, hc, ha⟩ := preRun_chain (preInv_init harr) h
    exact chainFrom_timelineOK hc (hconv ha)

/-- C3 witness at a concrete well-formed two-process input. -/
theorem c3_timeline_partition_witness :
    TimelineOK ([mkProc "P1" 0 2 0, mkProc "P2" 3 1 1].map Proc.pid)
      (fcfs [mkProc "P1" 0 2 0, mkProc "P2" 3 1 1]) :=
  (c3_timeline_partition [mkProc "P1" 0 2 0, mkProc "P2" 3 1 1] 2 32
    (fcfs [mkProc "P1" 0 2 0, mkProc "P2" 3 1 1])
    (by decide) (by decide)).1 rfl

end CPUSched

namespace CPUSched

/-! ## Arithmetic facts about the termination measures -/

theorem sumRemNat_append (a b : List Proc) :
    sumRemNat (a ++ b) = sumRemNat a + sumRemNat b := by
  simp [sumRemNat]

theorem sumRemNat_cons (p : Proc) (l : List Proc) :
    sumRemNat (p :: l) = p.remaining.toNat + sumRemNat l := by
  simp [sumRemNat]

theorem sumRemNat_perm {a b : List Proc} (h : List.Perm a b) :
    sumRemNat a = sumRemNat b :=
  List.Perm.sum_eq (h.map _)

theorem admitted_split_sum (t : Int) (rem : List Proc) :
    sumRemNat (admitted t rem) + sumRemNat (notYet t rem) = sumRemNat rem := by
  have := sumRemNat_perm (admitted_append_notYet_perm t rem)
  rw [← this, sumRemNat_append]

theorem admitted_notYet_length (t : Int) (rem : List Proc) :
    (admitted t rem).length + (notYet t rem).length = rem.length := by
  have := (admitted_append_notYet_perm t rem).length_eq
  simpa using this

theorem idleDebt_le_one (t : Int) (rem : List Proc) : idleDebt t rem ≤ 1 := by
  rw [idleDebt]
  split
  · omega
  · omega

theorem admittableB_false_iff (t : Int) (rem : List Proc) :
    admittableB t rem = false ↔ admitted t rem = [] := by
  constructor
  · intro h
    apply List.filter_eq_nil_iff.mpr
    intro p hp
    intro hc
    have : rem.any (fun p => decide (p.arrival ≤ t)) = true :=
      List.any_eq_true.mpr ⟨p, hp, hc⟩
    rw [admittableB] at h
    rw [h] at this
    cases this
  · intro h
    cases ha : admittableB t rem
    · rfl
    · obtain ⟨p, hp, hc⟩ := List.any_eq_true.mp ha
      have : p ∈ admitted t rem := List.mem_filter.mpr ⟨hp, hc⟩
      rw [h] at this
      cases this

theorem idleDebt_eq_one_or (t : Int) (rem : List Proc) :
    idleDebt t rem = 1 ∨ 1 ≤ (admitted t rem).length := by
  cases ha : admittableB t rem
  · left
    rw [idleDebt, ha]
    rfl
  · right
    obtain ⟨p, hp, hc⟩ := List.any_eq_true.mp ha
    exact List.length_pos_of_mem (List.mem_filter.mpr ⟨hp, hc⟩)

theorem idleDebt_of_admitted_nil {t : Int} {rem : List Proc}
    (h : admitted t rem = []) : idleDebt t rem = 1 := by
  rw [idleDebt, (admittableB_false_iff t rem).mpr h]
  rfl

theorem admitted_notYet_nil (t : Int) (rem : List Proc) :
    admitted t (notYet t rem) = [] := by
  apply List.filter_eq_nil_iff.mpr
  intro p hp
  have := (mem_notYet.mp hp).2
  simp only [decide_eq_true_eq]
  omega

theorem idleDebt_zero_of_mem {t : Int} {rem : List Proc} {p : Proc}
    (hp : p ∈ rem) (ha : p.arrival ≤ t) : idleDebt t rem = 0 := by
  rw [idleDebt]
  have : admittableB t rem = true :=
    List.any_eq_true.mpr ⟨p, hp, by simpa using ha⟩
  rw [this]
  rfl

/-! ## The non-preemptive measure decreases -/

theorem npMeasure_dec {le : Proc → Proc → Bool} {s : NPState}
    (hh : npHalted s = false) : npMeasure (npStep le s) < npMeasure s := by
  cases hsort : sortK le (s.ready ++ admitted s.time s.rem) with
  | nil =>
    have h2 := npStep_stuck hh hsort
    rw [npStep_idle hsort h2]
    have hready1 : s.ready ++ admitted s.time s.rem = [] := sortK_eq_nil hsort
    have hadm : admitted s.time s.rem = [] := (List.append_eq_nil.mp hready1).2
    have hny : notYet s.time s.rem = s.rem := notYet_eq_self_of_admitted_nil hadm
    have hne : notYet s.time s.rem ≠ [] := by
      intro hn
      rw [hn] at h2
      simp at h2
    obtain ⟨p, hp, hpe⟩ := earliestArrival_mem hne
    have hdn : idleDebt (earliestArrival (notYet s.time s.rem)) (notYet s.time s.rem) = 0 :=
      idleDebt_zero_of_mem hp (le_of_eq hpe)
    have hdo : idleDebt s.time s.rem = 1 := idleDebt_of_admitted_nil hadm
    show 2 * (notYet s.time s.rem).length + (s.ready ++ admitted s.time s.rem).length +
        idleDebt (earliestArrival (notYet s.time s.rem)) (notYet s.time s.rem) <
      2 * s.rem.length + s.ready.length + idleDebt s.time s.rem
    rw [hready1, hdo, hdn, hny]
    simp only [List.length_nil]
    have hq0 : s.ready.length = 0 := by
      rw [(List.append_eq_nil.mp hready1).1]
      rfl
    omega
  | cons p rest =>
    rw [npStep_busy hsort]
    have hlen : rest.length + 1 = s.ready.length + (admitted s.time s.rem).length := by
      have h1 := (sortK_perm le (s.ready ++ admitted s.time s.rem)).length_eq
      rw [hsort] at h1
      simpa using h1
    have hsplit := admitted_notYet_length s.time s.rem
    have hdn := idleDebt_le_one (s.time + p.burst) (notYet s.time s.rem)
    have hdisj := idleDebt_eq_one_or s.time s.rem
    show 2 * (notYet s.time s.rem).length + rest.length +
        idleDebt (s.time + p.burst) (notYet s.time s.rem) <
      2 * s.rem.length + s.ready.length + idleDebt s.time s.rem
    omega

theorem npRun_term (le : Proc → Proc → Bool) :
    ∀ (n : Nat) (s : NPState), npMeasure s < n → ∃ g, npRun le n s = some g := by
  intro n
  induction n with
  | zero =>
    intro s h
    omega
  | succ k ih =>
    intro s h
    cases hh : npHalted s with
    | true => exact ⟨s.gantt, by simp [npRun, hh]⟩
    | false =>
      have hdec : npMeasure (npStep le s) < npMeasure s := npMeasure_dec hh
      obtain ⟨g, hg⟩ := ih (npStep le s) (by omega)
      refine ⟨g, ?_⟩
      simp only [npRun, hh, Bool.false_eq_true, if_false]
      exact hg

end CPUSched

namespace CPUSched

theorem rrStep_skip {q : Int} {s : RRState} {p : Proc} {queue2 : List Proc}
    (h : s.queue ++ admitted s.time s.rem = p :: queue2)
    (hpos : p.remaining ≤ 0) :
    rrStep q s = { s with queue := queue2, rem := notYet s.time s.rem } := by
  simp only [rrStep, h]
  rw [if_pos hpos]

theorem sumRemNat_nil : sumRemNat [] = 0 := rfl

theorem rrMeasure_dec {q : Int} {s : RRState} (hq : 0 < q) (hh : rrHalted s = false) :
    rrMeasure (rrStep q s) < rrMeasure s := by
  cases hqueue : s.queue ++ admitted s.time s.rem with
  | nil =>
    have h2 := rrStep_stuck hh hqueue
    rw [rrStep_idle hqueue h2]
    have hqnil : s.queue = [] := (List.append_eq_nil.mp hqueue).1
    have hadm : admitted s.time s.rem = [] := (List.append_eq_nil.mp hqueue).2
    have hny : notYet s.time s.rem = s.rem := notYet_eq_self_of_admitted_nil hadm
    have hne : notYet s.time s.rem ≠ [] := by
      intro hn
      rw [hn] at h2
      simp at h2
    obtain ⟨p, hp, hpe⟩ := earliestArrival_mem hne
    have hdn : idleDebt (earliestArrival (notYet s.time s.rem)) (notYet s.time s.rem) = 0 :=
      idleDebt_zero_of_mem hp (le_of_eq hpe)
    have hdo : idleDebt s.time s.rem = 1 := idleDebt_of_admitted_nil hadm
    show sumRemNat ([] ++ notYet s.time s.rem) + 2 * (notYet s.time s.rem).length + [].length
        + idleDebt (earliestArrival (notYet s.time s.rem)) (notYet s.time s.rem) <
      sumRemNat (s.queue ++ s.rem) + 2 * s.rem.length + s.queue.length + idleDebt s.time s.rem
    rw [hdo, hdn, hny, hqnil]
    simp only [List.nil_append, List.length_nil]
    omega
  | cons p queue2 =>
    have hsums : sumRemNat s.queue + sumRemNat (admitted s.time s.rem) =
        p.remaining.toNat + sumRemNat queue2 := by
      have h1 := congrArg sumRemNat hqueue
      rw [sumRemNat_append, sumRemNat_cons] at h1
      exact h1
    have hlens : s.queue.length + (admitted s.time s.rem).length = queue2.length + 1 := by
      have h1 := congrArg List.length hqueue
      simpa using h1
    have hsplit1 := admitted_notYet_length s.time s.rem
    have hssplit1 := admitted_split_sum s.time s.rem
    have hdisj := idleDebt_eq_one_or s.time s.rem
    by_cases hpos : p.remaining ≤ 0
    · rw [rrStep_skip hqueue hpos]
      have hdn : idleDebt s.time (notYet s.time s.rem) = 1 :=
        idleDebt_of_admitted_nil (admitted_notYet_nil s.time s.rem)
      have htn : p.remaining.toNat = 0 := Int.toNat_of_nonpos hpos
      show sumRemNat (queue2 ++ notYet s.time s.rem) + 2 * (notYet s.time s.rem).length
          + queue2.length + idleDebt s.time (notYet s.time s.rem) <
        sumRemNat (s.queue ++ s.rem) + 2 * s.rem.length + s.queue.length + idleDebt s.time s.rem
      rw [sumRemNat_append, sumRemNat_append, hdn]
      omega
    · set run := min q p.remaining with hrundef
      have hrun1 : 0 < run := lt_min hq (not_le.mp hpos)
      have hrun2 : run ≤ p.remaining := min_le_right _ _
      rw [rrStep_busy hqueue hpos]
      simp only [rrMeasure]
      rw [← hrundef]
      have hssplit2 := admitted_split_sum (s.time + run) (notYet s.time s.rem)
      have hsplit2 := admitted_notYet_length (s.time + run) (notYet s.time s.rem)
      have hdn : idleDebt (s.time + run)
          (notYet (s.time + run) (notYet s.time s.rem)) = 1 :=
        idleDebt_of_admitted_nil (admitted_notYet_nil _ _)
      have hp1 : sumRemNat [{ p with remaining := p.remaining - run }] =
          (p.remaining - run).toNat := by
        simp [sumRemNat]
      by_cases hre : 0 < p.remaining - run
      · rw [if_pos hre]
        simp only [sumRemNat_append, List.length_append, List.length_singleton]
        rw [hp1, hdn]
        omega
      · rw [if_neg hre]
        simp only [sumRemNat_append, List.length_append]
        rw [hdn]
        omega

theorem rrRun_term {q : Int} (hq : 0 < q) :
    ∀ (n : Nat) (s : RRState), rrMeasure s < n → ∃ g, rrRun q n s = some g := by
  intro n
  induction n with
  | zero =>
    intro s h
    omega
  | succ k ih =>
    intro s h
    cases hh : rrHalted s with
    | true => exact ⟨s.gantt, by simp [rrRun, hh]⟩
    | false =>
      have hdec := rrMeasure_dec (s := s) hq hh
      obtain ⟨g, hg⟩ := ih (rrStep q s) (by omega)
      refine ⟨g, ?_⟩
      simp only [rrRun, hh, Bool.false_eq_true, if_false]
      exact hg

end CPUSched

namespace CPUSched

theorem preExec_ready (s : PreState) (chosen : Proc) :
    (preExec s chosen).ready = (s.ready ++ admitted s.time s.rem).erase chosen := by
  cases hcur : s.cur with
  | none =>
    rw [preExec_cur_none hcur]
    by_cases hc0 : chosen.remaining - 1 = 0
    · rw [if_pos hc0]
    · rw [if_neg hc0]
  | some ci =>
    obtain ⟨c, ist⟩ := ci
    by_cases hpe : chosen.pid = c.pid
    · rw [preExec_cur_same hcur hpe]
      by_cases hc0 : chosen.remaining - 1 = 0
      · rw [if_pos hc0]
      · rw [if_neg hc0]
    · rw [preExec_cur_diff hcur hpe]
      by_cases hc0 : chosen.remaining - 1 = 0
      · rw [if_pos hc0]
      · rw [if_neg hc0]

theorem preExec_rem (s : PreState) (chosen : Proc) :
    (preExec s chosen).rem = notYet s.time s.rem := by
  cases hcur : s.cur with
  | none =>
    rw [preExec_cur_none hcur]
    by_cases hc0 : chosen.remaining - 1 = 0
    · rw [if_pos hc0]
    · rw [if_neg hc0]
  | some ci =>
    obtain ⟨c, ist⟩ := ci
    by_cases hpe : chosen.pid = c.pid
    · rw [preExec_cur_same hcur hpe]
      by_cases hc0 : chosen.remaining - 1 = 0
      · rw [if_pos hc0]
      · rw [if_neg hc0]
    · rw [preExec_cur_diff hcur hpe]
      by_cases hc0 : chosen.remaining - 1 = 0
      · rw [if_pos hc0]
      · rw [if_neg hc0]

theorem preExec_curSum (s : PreState) (chosen : Proc) :
    sumRemNat (curList (preExec s chosen).cur) =
      if chosen.remaining - 1 = 0 then 0 else (chosen.remaining - 1).toNat := by
  have hs : sumRemNat [({ chosen with remaining := chosen.remaining - 1 } : Proc)] =
      (chosen.remaining - 1).toNat := by
    simp [sumRemNat]
  cases hcur : s.cur with
  | none =>
    rw [preExec_cur_none hcur]
    by_cases hc0 : chosen.remaining - 1 = 0
    · rw [if_pos hc0, if_pos hc0]
      rfl
    · rw [if_neg hc0, if_neg hc0]
      exact hs
  | some ci =>
    obtain ⟨c, ist⟩ := ci
    by_cases hpe : chosen.pid = c.pid
    · rw [preExec_cur_same hcur hpe]
      by_cases hc0 : chosen.remaining - 1 = 0
      · rw [if_pos hc0, if_pos hc0]
        rfl
      · rw [if_neg hc0, if_neg hc0]
        exact hs
    · rw [preExec_cur_diff hcur hpe]
      by_cases hc0 : chosen.remaining - 1 = 0
      · rw [if_pos hc0, if_pos hc0]
        rfl
      · rw [if_neg hc0, if_neg hc0]
        exact hs

theorem preExec_core {le : Proc → Proc → Bool} {l0 : List Proc} {s : PreState}
    {chosen : Proc} {rest : List Proc}
    (hinv : PreInv l0 s)
    (hsort : sortK le ((s.ready ++ admitted s.time s.rem) ++ curList s.cur) = chosen :: rest) :
    sumRemNat (preExec s chosen).ready + sumRemNat (curList (preExec s chosen).cur) + 1 ≤
      sumRemNat (s.ready ++ admitted s.time s.rem) + sumRemNat (curList s.cur) := by
  have hchosen : chosen ∈ (s.ready ++ admitted s.time s.rem) ++ curList s.cur := by
    apply mem_sortK.mp
    rw [hsort]
    exact List.mem_cons_self _ _
  have hcrem : 0 < chosen.remaining := (cands_live hinv hchosen).1.1
  rw [preExec_ready, preExec_curSum]
  by_cases hmem : chosen ∈ s.ready ++ admitted s.time s.rem
  · have hsum1 : sumRemNat (s.ready ++ admitted s.time s.rem) =
        chosen.remaining.toNat +
          sumRemNat ((s.ready ++ admitted s.time s.rem).erase chosen) := by
      rw [sumRemNat_perm (List.perm_cons_erase hmem), sumRemNat_cons]
    by_cases hc0 : chosen.remaining - 1 = 0
    · rw [if_pos hc0]
      omega
    · rw [if_neg hc0]
      omega
  · have hcl : chosen ∈ curList s.cur := by
      rcases List.mem_append.mp hchosen with h | h
      · exact absurd h hmem
      · exact h
    obtain ⟨c, ist, hcur⟩ : ∃ c ist, s.cur = some (c, ist) := by
      cases hcs : s.cur with
      | none =>
        rw [hcs] at hcl
        cases hcl
      | some ci =>
        obtain ⟨c0, i0⟩ := ci
        exact ⟨c0, i0, rfl⟩
    have hce : chosen = c := by
      rw [hcur] at hcl
      exact List.mem_singleton.mp hcl
    have hcsum : sumRemNat (curList s.cur) = chosen.remaining.toNat := by
      rw [hcur, ← hce]
      simp [curList, sumRemNat]
    rw [List.erase_of_not_mem hmem, hcsum]
    by_cases hc0 : chosen.remaining - 1 = 0
    · rw [if_pos hc0]
      omega
    · rw [if_neg hc0]
      omega

theorem preMeasure_dec {le : Proc → Proc → Bool} {l0 : List Proc} {s : PreState}
    (hinv : PreInv l0 s) (hh : preHalted s = false) :
    preMeasure (preStep le s) < preMeasure s := by
  cases hsort : sortK le ((s.ready ++ admitted s.time s.rem) ++ curList s.cur) with
  | nil =>
    have h2 := preStep_stuck hh hsort
    rw [preStep_idle hsort h2]
    have h1 := sortK_eq_nil hsort
    have hready1 : s.ready ++ admitted s.time s.rem = [] := (List.append_eq_nil.mp h1).1
    have hreadynil : s.ready = [] := (List.append_eq_nil.mp hready1).1
    have hadm : admitted s.time s.rem = [] := (List.append_eq_nil.mp hready1).2
    have hcur : s.cur = none := curList_eq_nil (List.append_eq_nil.mp h1).2
    have hny : notYet s.time s.rem = s.rem := notYet_eq_self_of_admitted_nil hadm
    have hne : notYet s.time s.rem ≠ [] := by
      intro hn
      rw [hn] at h2
      simp at h2
    obtain ⟨p, hp, hpe⟩ := earliestArrival_mem hne
    have hdn : idleDebt (earliestArrival (notYet s.time s.rem)) (notYet s.time s.rem) = 0 :=
      idleDebt_zero_of_mem hp (le_of_eq hpe)
    have hdo : idleDebt s.time s.rem = 1 := idleDebt_of_admitted_nil hadm
    show sumRemNat ((s.ready ++ admitted s.time s.rem) ++ curList s.cur ++ notYet s.time s.rem)
        + 2 * (notYet s.time s.rem).length
        + idleDebt (earliestArrival (notYet s.time s.rem)) (notYet s.time s.rem) <
      sumRemNat (s.ready ++ curList s.cur ++ s.rem) + 2 * s.rem.length + idleDebt s.time s.rem
    rw [hdo, hdn, hready1, hcur, hny, hreadynil]
    simp only [curList, List.nil_append, List.append_nil]
    omega
  | cons chosen rest =>
    rw [preStep_busy hsort]
    have hcore := preExec_core hinv hsort
    have hrem' := preExec_rem s chosen
    show sumRemNat ((preExec s chosen).ready ++ curList (preExec s chosen).cur
        ++ (preExec s chosen).rem) + 2 * (preExec s chosen).rem.length +
        idleDebt (preExec s chosen).time (preExec s chosen).rem <
      sumRemNat (s.ready ++ curList s.cur ++ s.rem) + 2 * s.rem.length + idleDebt s.time s.rem
    rw [hrem']
    simp only [sumRemNat_append]
    rw [sumRemNat_append] at hcore
    have hdn := idleDebt_le_one (preExec s chosen).time (notYet s.time s.rem)
    have hsplit1 := admitted_notYet_length s.time s.rem
    have hssplit1 := admitted_split_sum s.time s.rem
    have hdisj := idleDebt_eq_one_or s.time s.rem
    omega

theorem preRun_term (le : Proc → Proc → Bool) {l0 : List Proc} :
    ∀ (n : Nat) (s : PreState), PreInv l0 s → preMeasure s < n →
      ∃ g, preRun le n s = some g := by
  intro n
  induction n with
  | zero =>
    intro s _ h
    omega
  | succ k ih =>
    intro s hinv h
    cases hh : preHalted s with
    | true => exact ⟨s.gantt, by simp [preRun, hh]⟩
    | false =>
      have hdec : preMeasure (preStep le s) < preMeasure s := preMeasure_dec hinv hh
      obtain ⟨g, hg⟩ := ih (preStep le s) (preStep_inv hinv hh) (by omega)
      refine ⟨g, ?_⟩
      simp only [preRun, hh, Bool.false_eq_true, if_false]
      exact hg

/-- C5: each of the six policy functions terminates on every well-formed
input (`arrival ≥ 0`, `burst > 0`, unique non-empty pids; positive quantum
for Round Robin): `fcfs` is total by construction, and for each of the five
loop policies there is a fuel bound under which the run returns a result
(our fuel-indexed model returns `some` exactly when the Python loop exits
after that many iterations, so `none` for every fuel would mean divergence). -/
theorem c5_policies_terminate (l : List Proc) (q : Int)
    (hwf : WFInput l) (hq : 0 < q) :
    (∃ g : Gantt, fcfs l = g) ∧
    (∃ fuel g, sjf_nonpreemptive fuel l = some g) ∧
    (∃ fuel g, priority_nonpreemptive fuel l = some g) ∧
    (∃ fuel g, round_robin fuel l q = some g) ∧
    (∃ fuel g, sjf_preemptive fuel l = some g) ∧
    (∃ fuel g, priority_preemptive fuel l = some g) := by
  have harr : ∀ p ∈ l, 0 ≤ p.arrival ∧ 0 < p.burst := fun p hp =>
    ⟨(hwf.1 p hp).1, (hwf.1 p hp).2.1⟩
  refine ⟨⟨fcfs l, rfl⟩, ?_, ?_, ?_, ?_, ?_⟩
  · obtain ⟨g, hg⟩ := npRun_term sjfLe (npMeasure (npInit l) + 1) (npInit l) (by omega)
    exact ⟨npMeasure (npInit l) + 1, g, hg⟩
  · obtain ⟨g, hg⟩ := npRun_term prioLe (npMeasure (npInit l) + 1) (npInit l) (by omega)
    exact ⟨npMeasure (npInit l) + 1, g, hg⟩
  · obtain ⟨g, hg⟩ := rrRun_term hq (rrMeasure (rrInit l) + 1) (rrInit l) (by omega)
    exact ⟨rrMeasure (rrInit l) + 1, g, hg⟩
  · obtain ⟨g, hg⟩ := preRun_term srtfLe (preMeasure (preInit l) + 1) (preInit l)
      (preInv_init harr) (by omega)
    exact ⟨preMeasure (preInit l) + 1, g, hg⟩
  · obtain ⟨g, hg⟩ := preRun_term prioPreLe (preMeasure (preInit l) + 1) (preInit l)
      (preInv_init harr) (by omega)
    exact ⟨preMeasure (preInit l) + 1, g, hg⟩

/-- C5 witness at a concrete well-formed input. -/
theorem c5_policies_terminate_witness :
    (∃ g : Gantt, fcfs [mkProc "P1" 0 2 0, mkProc "P2" 3 1 1] = g) ∧
    (∃ fuel g, sjf_nonpreemptive fuel [mkProc "P1" 0 2 0, mkProc "P2" 3 1 1] = some g) ∧
    (∃ fuel g, priority_nonpreemptive fuel [mkProc "P1" 0 2 0, mkProc "P2" 3 1 1] = some g) ∧
    (∃ fuel g, round_robin fuel [mkProc "P1" 0 2 0, mkProc "P2" 3 1 1] 2 = some g) ∧
    (∃ fuel g, sjf_preemptive fuel [mkProc "P1" 0 2 0, mkProc "P2" 3 1 1] = some g) ∧
    (∃ fuel g, priority_preemptive fuel [mkProc "P1" 0 2 0, mkProc "P2" 3 1 1] = some g) :=
  c5_policies_terminate [mkProc "P1" 0 2 0, mkProc "P2" 3 1 1] 2 (by decide) (by decide)

end CPUSched

namespace CPUSched

/-! ## Idle-step characterisation (claim C8) -/

/-- A freshly emitted interval ending strictly after the clock cannot already
be in a gantt that chains up to the clock. -/
theorem new_iv_not_mem {g : Gantt} {T : Int} (hchain : ChainFrom 0 g T)
    {iv : GEntry} (hend : T < iv.2.2) : iv ∉ g := by
  intro hmem
  have := (chainFrom_mem hchain iv hmem).2.2
  omega

theorem npStep_c8 {le : Proc → Proc → Bool} {l0 : List Proc} {s : NPState}
    (hinv : NPInv l0 s) (hh : npHalted s = false)
    (hni : "idle" ∉ l0.map Proc.pid) :
    ((∃ iv ∈ (npStep le s).gantt, iv ∉ s.gantt ∧ iv.1 = "idle") ↔
      (s.ready ++ admitted s.time s.rem = [] ∧ notYet s.time s.rem ≠ [])) ∧
    (s.ready ++ admitted s.time s.rem = [] → notYet s.time s.rem ≠ [] →
      (npStep le s).gantt = s.gantt ++
        [("idle", s.time, earliestArrival (notYet s.time s.rem))] ∧
      s.time < earliestArrival (notYet s.time s.rem) ∧
      notYet s.time s.rem = notArrived l0 s.time ∧
      (∀ p ∈ notYet s.time s.rem, earliestArrival (notYet s.time s.rem) ≤ p.arrival) ∧
      (∃ p ∈ notYet s.time s.rem, p.arrival = earliestArrival (notYet s.time s.rem)) ∧
      (npStep le s).time = earliestArrival (notYet s.time s.rem)) ∧
    (s.ready ++ admitted s.time s.rem ≠ [] →
      ∃ p rest2, sortK le (s.ready ++ admitted s.time s.rem) = p :: rest2 ∧
        (npStep le s).gantt = s.gantt ++ [(p.pid, s.time, s.time + p.burst)] ∧
        p.pid ≠ "idle" ∧ p.arrival ≤ s.time ∧ 0 < p.burst ∧
        (npStep le s).time = s.time + p.burst) := by
  obtain ⟨τ, hτ, hrem⟩ := hinv.remChar
  have hremChar : notYet s.time s.rem = notArrived l0 s.time := by
    rw [hrem]
    exact notYet_notArrived hτ
  cases hsort : sortK le (s.ready ++ admitted s.time s.rem) with
  | nil =>
    have h2 := npStep_stuck hh hsort
    have hready1 : s.ready ++ admitted s.time s.rem = [] := sortK_eq_nil hsort
    have hne : notYet s.time s.rem ≠ [] := by
      intro hn
      rw [hn] at h2
      simp at h2
    have hlt : s.time < earliestArrival (notYet s.time s.rem) :=
      lt_earliestArrival hne (fun p hp => (mem_notYet.mp hp).2)
    rw [npStep_idle hsort h2]
    refine ⟨?_, ?_, ?_⟩
    · constructor
      · intro _
        exact ⟨hready1, hne⟩
      · intro _
        refine ⟨("idle", s.time, earliestArrival (notYet s.time s.rem)),
          List.mem_append_right _ (List.mem_singleton_self _), ?_, rfl⟩
        exact new_iv_not_mem hinv.chain hlt
    · intro _ _
      refine ⟨rfl, hlt, hremChar, ?_, earliestArrival_mem hne, rfl⟩
      intro p hp
      exact earliestArrival_le hp
    · intro hc
      exact absurd hready1 hc
  | cons p rest2 =>
    have hready1 : s.ready ++ admitted s.time s.rem ≠ [] := by
      intro hn
      rw [hn] at hsort
      cases hsort
    have hpmem : p ∈ s.ready ++ admitted s.time s.rem := by
      apply mem_sortK.mp
      rw [hsort]
      exact List.mem_cons_self _ _
    obtain ⟨⟨hb, hpid⟩, harr⟩ := ready1_live hinv hpmem
    have hpne : p.pid ≠ "idle" := by
      intro he
      rw [he] at hpid
      exact hni hpid
    rw [npStep_busy hsort]
    refine ⟨?_, ?_, ?_⟩
    · constructor
      · rintro ⟨iv, hiv, hnot, hidle⟩
        rcases List.mem_append.mp hiv with h | h
        · exact absurd h hnot
        · rw [List.mem_singleton.mp h] at hidle
          exact absurd hidle hpne
      · rintro ⟨hn, _⟩
        exact absurd hn hready1
    · intro hn
      exact absurd hn hready1
    · intro _
      exact ⟨p, rest2, rfl, rfl, hpne, harr, hb, rfl⟩

theorem rrStep_c8 {q : Int} {l0 : List Proc} {s : RRState} (hq : 0 < q)
    (hinv : RRInv l0 s) (hh : rrHalted s = false)
    (hni : "idle" ∉ l0.map Proc.pid) :
    ((∃ iv ∈ (rrStep q s).gantt, iv ∉ s.gantt ∧ iv.1 = "idle") ↔
      (s.queue ++ admitted s.time s.rem = [] ∧ notYet s.time s.rem ≠ [])) ∧
    (s.queue ++ admitted s.time s.rem = [] → notYet s.time s.rem ≠ [] →
      (rrStep q s).gantt = s.gantt ++
        [("idle", s.time, earliestArrival (notYet s.time s.rem))] ∧
      s.time < earliestArrival (notYet s.time s.rem) ∧
      notYet s.time s.rem = notArrived l0 s.time ∧
      (∀ p ∈ notYet s.time s.rem, earliestArrival (notYet s.time s.rem) ≤ p.arrival) ∧
      (∃ p ∈ notYet s.time s.rem, p.arrival = earliestArrival (notYet s.time s.rem)) ∧
      (rrStep q s).time = earliestArrival (notYet s.time s.rem)) ∧
    (s.queue ++ admitted s.time s.rem ≠ [] →
      ∃ p queue2, s.queue ++ admitted s.time s.rem = p :: queue2 ∧
        (rrStep q s).gantt = s.gantt ++ [(p.pid, s.time, s.time + min q p.remaining)] ∧
        p.pid ≠ "idle" ∧ p.arrival ≤ s.time ∧ 0 < min q p.remaining ∧
        (rrStep q s).time = s.time + min q p.remaining) := by
  obtain ⟨τ, hτ, hrem⟩ := hinv.remChar
  have hremChar : notYet s.time s.rem = notArrived l0 s.time := by
    rw [hrem]
    exact notYet_notArrived hτ
  cases hqueue : s.queue ++ admitted s.time s.rem with
  | nil =>
    have h2 := rrStep_stuck hh hqueue
    have hne : notYet s.time s.rem ≠ [] := by
      intro hn
      rw [hn] at h2
      simp at h2
    have hlt : s.time < earliestArrival (notYet s.time s.rem) :=
      lt_earliestArrival hne (fun p hp => (mem_notYet.mp hp).2)
    rw [rrStep_idle hqueue h2]
    refine ⟨?_, ?_, ?_⟩
    · constructor
      · intro _
        exact ⟨rfl, hne⟩
      · intro _
        refine ⟨("idle", s.time, earliestArrival (notYet s.time s.rem)),
          List.mem_append_right _ (List.mem_singleton_self _), ?_, rfl⟩
        exact new_iv_not_mem hinv.chain hlt
    · intro _ _
      refine ⟨rfl, hlt, hremChar, ?_, earliestArrival_mem hne, rfl⟩
      intro p hp
      exact earliestArrival_le hp
    · intro hc
      exact absurd rfl hc
  | cons p queue2 =>
    have hready1 : (p :: queue2 : List Proc) ≠ [] := by
      intro hn
      cases hn
    have hpmem : p ∈ s.queue ++ admitted s.time s.rem := by
      rw [hqueue]
      exact List.mem_cons_self _ _
    obtain ⟨⟨hprem, hpid⟩, harr⟩ := queue1_live hinv hpmem
    have hpos : ¬ p.remaining ≤ 0 := not_le.mpr hprem
    have hpne : p.pid ≠ "idle" := by
      intro he
      rw [he] at hpid
      exact hni hpid
    have hrun : 0 < min q p.remaining := lt_min hq hprem
    rw [rrStep_busy hqueue hpos]
    refine ⟨?_, ?_, ?_⟩
    · constructor
      · rintro ⟨iv, hiv, hnot, hidle⟩
        rcases List.mem_append.mp hiv with h | h
        · exact absurd h hnot
        · rw [List.mem_singleton.mp h] at hidle
          exact absurd hidle hpne
      · rintro ⟨hn, _⟩
        exact absurd hn hready1
    · intro hn
      exact absurd hn hready1
    · intro _
      exact ⟨p, queue2, rfl, rfl, hpne, harr, hrun, rfl⟩

end CPUSched

namespace CPUSched

theorem preStep_c8 {le : Proc → Proc → Bool} {l0 : List Proc} {s : PreState}
    (hinv : PreInv l0 s) (hh : preHalted s = false)
    (hni : "idle" ∉ l0.map Proc.pid) :
    ((∃ iv ∈ (preStep le s).gantt, iv ∉ s.gantt ∧ iv.1 = "idle") ↔
      ((s.ready ++ admitted s.time s.rem) ++ curList s.cur = [] ∧
        notYet s.time s.rem ≠ [])) ∧
    ((s.ready ++ admitted s.time s.rem) ++ curList s.cur = [] →
      notYet s.time s.rem ≠ [] →
      (preStep le s).gantt = s.gantt ++
        [("idle", s.time, earliestArrival (notYet s.time s.rem))] ∧
      s.time < earliestArrival (notYet s.time s.rem) ∧
      notYet s.time s.rem = notArrived l0 s.time ∧
      (∀ p ∈ notYet s.time s.rem, earliestArrival (notYet s.time s.rem) ≤ p.arrival) ∧
      (∃ p ∈ notYet s.time s.rem, p.arrival = earliestArrival (notYet s.time s.rem)) ∧
      (preStep le s).time = earliestArrival (notYet s.time s.rem)) ∧
    ((s.ready ++ admitted s.time s.rem) ++ curList s.cur ≠ [] →
      ∃ chosen rest2,
        sortK le ((s.ready ++ admitted s.time s.rem) ++ curList s.cur) = chosen :: rest2 ∧
        (preStep le s).time = s.time + 1 ∧ chosen.pid ≠ "idle" ∧
        chosen.arrival ≤ s.time ∧ 0 < chosen.remaining ∧
        (∃ ist1, ist1 ≤ s.time ∧
          ((preStep le s).cur =
              some ({ chosen with remaining := chosen.remaining - 1 }, ist1) ∨
            (chosen.pid, ist1, s.time + 1) ∈ (preStep le s).gantt)) ∧
        (∀ iv ∈ (preStep le s).gantt, iv ∉ s.gantt → iv.1 ≠ "idle")) := by
  obtain ⟨τ, hτ, hrem⟩ := hinv.remChar
  have hremChar : notYet s.time s.rem = notArrived l0 s.time := by
    rw [hrem]
    exact notYet_notArrived hτ
  cases hsort : sortK le ((s.ready ++ admitted s.time s.rem) ++ curList s.cur) with
  | nil =>
    have h2 := preStep_stuck hh hsort
    have hcands : (s.ready ++ admitted s.time s.rem) ++ curList s.cur = [] :=
      sortK_eq_nil hsort
    have hcur : s.cur = none := curList_eq_nil (List.append_eq_nil.mp hcands).2
    have hne : notYet s.time s.rem ≠ [] := by
      intro hn
      rw [hn] at h2
      simp at h2
    have hlt : s.time < earliestArrival (notYet s.time s.rem) :=
      lt_earliestArrival hne (fun p hp => (mem_notYet.mp hp).2)
    rw [preStep_idle hsort h2]
    refine ⟨?_, ?_, ?_⟩
    · constructor
      · intro _
        exact ⟨hcands, hne⟩
      · intro _
        refine ⟨("idle", s.time, earliestArrival (notYet s.time s.rem)),
          List.mem_append_right _ (List.mem_singleton_self _), ?_, rfl⟩
        exact new_iv_not_mem (hinv.chain_none hcur) hlt
    · intro _ _
      refine ⟨rfl, hlt, hremChar, ?_, earliestArrival_mem hne, rfl⟩
      intro p hp
      exact earliestArrival_le hp
    · intro hc
      exact absurd hcands hc
  | cons chosen rest2 =>
    have hcands : (s.ready ++ admitted s.time s.rem) ++ curList s.cur ≠ [] := by
      intro hn
      rw [hn] at hsort
      cases hsort
    have hchosen : chosen ∈ (s.ready ++ admitted s.time s.rem) ++ curList s.cur := by
      apply mem_sortK.mp
      rw [hsort]
      exact List.mem_cons_self _ _
    obtain ⟨⟨hcrem, hcpid⟩, hcarr⟩ := cands_live hinv hchosen
    have hcne : chosen.pid ≠ "idle" := by
      intro he
      rw [he] at hcpid
      exact hni hcpid
    obtain ⟨_, htime, htick, hnew⟩ := preExec_facts hinv hsort
    rw [preStep_busy hsort]
    refine ⟨?_, ?_, ?_⟩
    · constructor
      · rintro ⟨iv, hiv, hnot, hidle⟩
        have := hnew iv hiv hnot
        rw [hidle] at this
        exact absurd this hni
      · rintro ⟨hn, _⟩
        exact absurd hn hcands
    · intro hn
      exact absurd hn hcands
    · intro _
      refine ⟨chosen, rest2, rfl, htime, hcne, hcarr, hcrem, htick, ?_⟩
      intro iv hiv hnot
      intro he
      have := hnew iv hiv hnot
      rw [he] at this
      exact hni this

end CPUSched

namespace CPUSched

theorem mem_insertK {le : Proc → Proc → Bool} {x z : Proc} {l : List Proc} :
    z ∈ insertK le x l ↔ z = x ∨ z ∈ l := by
  rw [(insertK_perm le x l).mem_iff]
  exact List.mem_cons

theorem insertK_sorted_arr (x : Proc) : ∀ {l : List Proc},
    List.Pairwise (fun a b : Proc => a.arrival ≤ b.arrival) l →
    List.Pairwise (fun a b : Proc => a.arrival ≤ b.arrival) (insertK arrLe x l) := by
  intro l
  induction l with
  | nil =>
    intro _
    exact List.pairwise_singleton _ _
  | cons y ys ih =>
    intro h
    obtain ⟨hy, hys⟩ := List.pairwise_cons.mp h
    simp only [insertK]
    cases hle : arrLe x y with
    | true =>
      simp only [if_true]
      have hxy : x.arrival ≤ y.arrival := by
        have := hle
        rw [arrLe, decide_eq_true_eq] at this
        exact this
      refine List.pairwise_cons.mpr ⟨?_, h⟩
      intro z hz
      rcases List.mem_cons.mp hz with rfl | hz2
      · exact hxy
      · exact le_trans hxy (hy z hz2)
    | false =>
      simp only [Bool.false_eq_true, if_false]
      have hyx : y.arrival ≤ x.arrival := by
        have := hle
        rw [arrLe, decide_eq_false_iff_not] at this
        omega
      refine List.pairwise_cons.mpr ⟨?_, ih hys⟩
      intro z hz
      rcases mem_insertK.mp hz with rfl | hz2
      · exact hyx
      · exact hy z hz2

theorem sortK_sorted_arr (l : List Proc) :
    List.Pairwise (fun a b : Proc => a.arrival ≤ b.arrival) (sortK arrLe l) := by
  induction l with
  | nil => exact List.Pairwise.nil
  | cons x xs ih => exact insertK_sorted_arr x ih

theorem fcfsGo_c8 {p : Proc} {rest : List Proc} (t : Int)
    (hsorted : List.Pairwise (fun a b : Proc => a.arrival ≤ b.arrival) (p :: rest))
    (hni : NoIdlePid (p :: rest)) : FcfsIdleSpec p rest t := by
  have hmin : ∀ q ∈ p :: rest, p.arrival ≤ q.arrival := by
    intro q hq
    rcases List.mem_cons.mp hq with rfl | h
    · exact le_refl _
    · exact (List.pairwise_cons.mp hsorted).1 q h
  refine ⟨?_, ?_, ?_⟩
  · constructor
    · intro h
      by_contra hc
      have hple : p.arrival ≤ t := not_lt.mp hc
      have : p ∈ admitted t (p :: rest) :=
        mem_admitted.mpr ⟨List.mem_cons_self _ _, hple⟩
      rw [h] at this
      cases this
    · intro h
      apply List.filter_eq_nil_iff.mpr
      intro q hq
      simp only [decide_eq_true_eq]
      have := hmin q hq
      omega
  · intro h
    have hself : notYet t (p :: rest) = p :: rest := by
      apply List.filter_eq_self.mpr
      intro q hq
      have := hmin q hq
      simp only [Bool.not_eq_eq_eq_not, Bool.not_true, decide_eq_false_iff_not]
      omega
    refine ⟨?_, hself, ?_⟩
    · simp only [fcfsGo]
      rw [if_pos h]
    · rw [hself]
      have h1 : earliestArrival (p :: rest) ≤ p.arrival :=
        earliestArrival_le (List.mem_cons_self _ _)
      obtain ⟨qq, hq, hqe⟩ := earliestArrival_mem (l := p :: rest) (by intro hn; cases hn)
      have h2 : p.arrival ≤ earliestArrival (p :: rest) := hqe ▸ hmin qq hq
      omega
  · intro h
    refine ⟨?_, hni p (List.mem_cons_self _ _), not_lt.mp h⟩
    simp only [fcfsGo]
    rw [if_neg h]

end CPUSched

namespace CPUSched

/-- C8: for every policy and well-formed input (unique non-empty pids,
`arrival ≥ 0`, `burst > 0`, no process named `idle`, positive quantum for
Round Robin), an iteration of the engine records an idle-actor interval iff
its ready structure (and, for the preemptive loops, the running process) is
empty after admission while some process has not yet arrived; such an
interval is exactly `(idle, clock, nxt)` where `nxt` is the earliest arrival
among the not-yet-arrived processes (to which the clock jumps); and in every
other iteration an already-arrived process with an input pid executes and
accounts for the entire clock advance — so idling is the only way time
passes without work.  For FCFS the same characterisation is stated over
its sorted single pass; for the loop policies it is stated for every state
satisfying the run invariant, which holds initially and is preserved by
every step. -/
theorem c8_idle_exactly_when_ready_empty (l : List Proc) (q : Int)
    (hwf : WFInput l) (hni : NoIdlePid l) (hq : 0 < q) :
    (List.Pairwise (fun a b : Proc => a.arrival ≤ b.arrival) (sortK arrLe l) ∧
      List.Perm (sortK arrLe l) l ∧
      (∀ (p : Proc) (rest : List Proc) (t : Int),
        List.Pairwise (fun a b : Proc => a.arrival ≤ b.arrival) (p :: rest) →
        NoIdlePid (p :: rest) → FcfsIdleSpec p rest t)) ∧
    (NPInv (l.map reinit) (npInit l) ∧
      ∀ s : NPState, NPInv (l.map reinit) s → npHalted s = false →
        NPInv (l.map reinit) (npStep sjfLe s) ∧ NPIdleSpec sjfLe (l.map reinit) s) ∧
    (NPInv (l.map reinit) (npInit l) ∧
      ∀ s : NPState, NPInv (l.map reinit) s → npHalted s = false →
        NPInv (l.map reinit) (npStep prioLe s) ∧ NPIdleSpec prioLe (l.map reinit) s) ∧
    (RRInv (l.map reinit) (rrInit l) ∧
      ∀ s : RRState, RRInv (l.map reinit) s → rrHalted s = false →
        RRInv (l.map reinit) (rrStep q s) ∧ RRIdleSpec q (l.map reinit) s) ∧
    (PreInv (l.map reinit) (preInit l) ∧
      ∀ s : PreState, PreInv (l.map reinit) s → preHalted s = false →
        PreInv (l.map reinit) (preStep srtfLe s) ∧
          PreIdleSpec srtfLe (l.map reinit) s) ∧
    (PreInv (l.map reinit) (preInit l) ∧
      ∀ s : PreState, PreInv (l.map reinit) s → preHalted s = false →
        PreInv (l.map reinit) (preStep prioPreLe s) ∧
          PreIdleSpec prioPreLe (l.map reinit) s) := by
  have harr : ∀ p ∈ l, 0 ≤ p.arrival ∧ 0 < p.burst := fun p hp =>
    ⟨(hwf.1 p hp).1, (hwf.1 p hp).2.1⟩
  have hni' : "idle" ∉ (l.map reinit).map Proc.pid := by
    rw [map_reinit_pid]
    intro h
    obtain ⟨p, hp, he⟩ := List.mem_map.mp h
    exact hni p hp he
  refine ⟨⟨sortK_sorted_arr l, sortK_perm arrLe l, ?_⟩,
    ⟨npInv_init harr, ?_⟩, ⟨npInv_init harr, ?_⟩, ⟨rrInv_init harr, ?_⟩,
    ⟨preInv_init harr, ?_⟩, ⟨preInv_init harr, ?_⟩⟩
  · intro p rest t hs hn
    exact fcfsGo_c8 t hs hn
  · intro s hinv hh
    exact ⟨npStep_inv hinv hh, npStep_c8 hinv hh hni'⟩
  · intro s hinv hh
    exact ⟨npStep_inv hinv hh, npStep_c8 hinv hh hni'⟩
  · intro s hinv hh
    exact ⟨rrStep_inv hq hinv hh, rrStep_c8 hq hinv hh hni'⟩
  · intro s hinv hh
    exact ⟨preStep_inv hinv hh, preStep_c8 hinv hh hni'⟩
  · intro s hinv hh
    exact ⟨preStep_inv hinv hh, preStep_c8 hinv hh hni'⟩

/-- C8 witness: instantiation at a concrete well-formed input. -/
theorem c8_idle_exactly_when_ready_empty_witness :
    RRInv ([mkProc "P1" 0 2 0, mkProc "P2" 3 1 1].map reinit)
      (rrInit [mkProc "P1" 0 2 0, mkProc "P2" 3 1 1]) :=
  (c8_idle_exactly_when_ready_empty [mkProc "P1" 0 2 0, mkProc "P2" 3 1 1] 2
    (by decide) (by decide) (by decide)).2.2.2.1.1

end CPUSched

namespace CPUSched

/-! ## TimeMap (the `starts`/`completions` dicts) lemmas -/

theorem tmFind_cons (kv : String × Option Int) (rest : TimeMap) (k : String) :
    tmFind (kv :: rest) k = if kv.1 == k then some kv.2 else tmFind rest k := by
  cases h : (kv.1 == k) with
  | true => simp [tmFind, List.find?, h]
  | false => simp [tmFind, List.find?, h]

theorem tmSet_cons (kv : String × Option Int) (rest : TimeMap) (k : String) (v : Int) :
    tmSet (kv :: rest) k v =
      (if kv.1 == k then (kv.1, some v) else kv) :: tmSet rest k v := rfl

theorem tmFind_tmSet_self : ∀ {m : TimeMap} {k : String} {w : Option Int},
    tmFind m k = some w → ∀ v, tmFind (tmSet m k v) k = some (some v) := by
  intro m
  induction m with
  | nil =>
    intro k w h v
    simp [tmFind, List.find?] at h
  | cons kv rest ih =>
    intro k w h v
    rw [tmFind_cons] at h
    rw [tmSet_cons]
    by_cases hk : kv.1 = k
    · simp only [hk, beq_self_eq_true, if_true, tmFind_cons]
    · have h2 : (kv.1 == k) = false := by simpa using hk
      simp only [h2, Bool.false_eq_true, if_false, tmFind_cons] at h ⊢
      exact ih h v

theorem tmFind_tmSet_ne : ∀ (m : TimeMap) {k k' : String}, k' ≠ k → ∀ v,
    tmFind (tmSet m k v) k' = tmFind m k' := by
  intro m
  induction m with
  | nil =>
    intro k k' _ v
    rfl
  | cons kv rest ih =>
    intro k k' hne v
    rw [tmSet_cons]
    by_cases hk : kv.1 = k
    · simp only [hk, beq_self_eq_true, if_true, tmFind_cons]
      have h2 : (k == k') = false := by
        simp only [beq_eq_false_iff_ne, ne_eq]
        exact fun he => hne he.symm
      simp only [h2, Bool.false_eq_true, if_false]
      exact ih hne v
    · have h2 : (kv.1 == k) = false := by simpa using hk
      simp only [h2, Bool.false_eq_true, if_false, tmFind_cons]
      by_cases h3 : kv.1 = k'
      · simp [h3]
      · have h4 : (kv.1 == k') = false := by simpa using h3
        simp only [h4, Bool.false_eq_true, if_false]
        exact ih hne v

theorem tmFind_init (info : List Desc) (k : String) :
    tmFind (info.map (fun d => (d.pid, (none : Option Int)))) k =
      if k ∈ info.map Desc.pid then some none else none := by
  induction info with
  | nil => simp [tmFind, List.find?]
  | cons d rest ih =>
    rw [List.map_cons, tmFind_cons]
    by_cases h : d.pid = k
    · subst h
      simp
    · have hb : ((d.pid, (none : Option Int)).1 == k) = false := by simpa using h
      rw [hb]
      simp only [Bool.false_eq_true, if_false]
      rw [ih, List.map_cons]
      by_cases hm : k ∈ rest.map Desc.pid
      · rw [if_pos hm, if_pos (List.mem_cons_of_mem _ hm)]
      · rw [if_neg hm, if_neg ?_]
        intro hc
        rcases List.mem_cons.mp hc with he | hm2
        · exact h he.symm
        · exact hm hm2

/-! ## pidIntervals / specStart / specCompletion unfolding -/

theorem pidIntervals_cons_skip {a k : String} {sv ev : Int} {rest : Gantt}
    (h : a = "idle" ∨ a ≠ k) :
    pidIntervals ((a, sv, ev) :: rest) k = pidIntervals rest k := by
  rcases h with h | h
  · subst h
    by_cases hk : "idle" = k
    · subst hk
      simp [pidIntervals]
    · simp [pidIntervals, hk]
  · simp [pidIntervals, h]

theorem pidIntervals_cons_take {a : String} (ha : a ≠ "idle") (sv ev : Int) (rest : Gantt) :
    pidIntervals ((a, sv, ev) :: rest) a = (a, sv, ev) :: pidIntervals rest a := by
  simp [pidIntervals, ha]

theorem specStart_cons_skip {a k : String} {sv ev : Int} {rest : Gantt}
    (h : a = "idle" ∨ a ≠ k) :
    specStart ((a, sv, ev) :: rest) k = specStart rest k := by
  rw [specStart, pidIntervals_cons_skip h, specStart]

theorem specStart_cons_take {a : String} (ha : a ≠ "idle") (sv ev : Int) (rest : Gantt) :
    specStart ((a, sv, ev) :: rest) a = some sv := by
  rw [specStart, pidIntervals_cons_take ha]
  rfl

theorem specCompletion_cons_skip {a k : String} {sv ev : Int} {rest : Gantt}
    (h : a = "idle" ∨ a ≠ k) :
    specCompletion ((a, sv, ev) :: rest) k = specCompletion rest k := by
  rw [specCompletion, pidIntervals_cons_skip h, specCompletion]

theorem specCompletion_cons_take {a : String} (ha : a ≠ "idle") (sv ev : Int) (rest : Gantt) :
    specCompletion ((a, sv, ev) :: rest) a =
      match specCompletion rest a with
      | some e => some e
      | none => some ev := by
  rw [specCompletion, pidIntervals_cons_take ha]
  cases h : pidIntervals rest a with
  | nil =>
    rw [specCompletion, h]
    rfl
  | cons iv l =>
    rw [List.getLast?_cons_cons, specCompletion, h]
    cases hg : (iv :: l).getLast? with
    | none =>
      exfalso
      have : iv :: l ≠ [] := by intro hn; cases hn
      rw [List.getLast?_eq_none_iff] at hg
      exact this hg
    | some jv => rfl

theorem specStart_nil (k : String) : specStart [] k = none := rfl

theorem specCompletion_nil (k : String) : specCompletion [] k = none := rfl

/-! ## Claim C6: characterisation of the metrics calculator -/

theorem fillTimes_cons_idle (sv ev : Int) (rest : Gantt) (st cp : TimeMap) :
    fillTimes (("idle", sv, ev) :: rest) st cp = fillTimes rest st cp := by
  simp only [fillTimes]
  rw [if_pos trivial]

theorem fillTimes_cons_none (a : String) (sv ev : Int) (rest : Gantt) (st cp : TimeMap)
    (ha : a ≠ "idle") (hw : tmFind st a = some none) :
    fillTimes ((a, sv, ev) :: rest) st cp =
      fillTimes rest (tmSet st a sv) (tmSet cp a ev) := by
  simp only [fillTimes, if_neg ha, hw]

theorem fillTimes_cons_some (a : String) (sv ev : Int) (rest : Gantt) (st cp : TimeMap)
    (x : Int) (ha : a ≠ "idle") (hw : tmFind st a = some (some x)) :
    fillTimes ((a, sv, ev) :: rest) st cp = fillTimes rest st (tmSet cp a ev) := by
  simp only [fillTimes, if_neg ha, hw]

/-- The timeline scan succeeds whenever every non-idle actor is a key of
`starts`, and the final maps are characterised by `specStart` (first write
wins) and `specCompletion` (last write wins). -/
theorem fillTimes_char : ∀ (g : Gantt) (st cp : TimeMap),
    (∀ iv ∈ g, iv.1 ≠ "idle" → ∃ w, tmFind st iv.1 = some w) →
    ∃ st' cp', fillTimes g st cp = some (st', cp') ∧
      (∀ k x, tmFind st k = some (some x) → tmFind st' k = some (some x)) ∧
      (∀ k, tmFind st k = some none → tmFind st' k = some (specStart g k)) ∧
      (∀ k v, tmFind cp k = some v →
        tmFind cp' k = some (match specCompletion g k with
          | some e => some e
          | none => v)) := by
  intro g
  induction g with
  | nil =>
    intro st cp _
    refine ⟨st, cp, rfl, fun k x h => h, fun k h => ?_, fun k v h => ?_⟩
    · rw [h, specStart_nil]
    · rw [h, specCompletion_nil]
  | cons iv rest ih =>
    obtain ⟨a, sv, ev⟩ := iv
    intro st cp hdom
    by_cases ha : a = "idle"
    · subst ha
      obtain ⟨st', cp', h1, h2, h3, h4⟩ :=
        ih st cp (fun iv hm hne => hdom iv (List.mem_cons_of_mem _ hm) hne)
      refine ⟨st', cp', (fillTimes_cons_idle sv ev rest st cp).trans h1, h2,
        fun k h => ?_, fun k v h => ?_⟩
      · rw [specStart_cons_skip (Or.inl rfl)]
        exact h3 k h
      · rw [specCompletion_cons_skip (Or.inl rfl)]
        exact h4 k v h
    · obtain ⟨w, hw⟩ := hdom (a, sv, ev) (List.mem_cons_self _ _) ha
      cases w with
      | none =>
        have hdom' : ∀ iv ∈ rest, iv.1 ≠ "idle" →
            ∃ w, tmFind (tmSet st a sv) iv.1 = some w := by
          intro iv hm hne
          by_cases hk : iv.1 = a
          · exact ⟨some sv, by rw [hk]; exact tmFind_tmSet_self hw sv⟩
          · rw [tmFind_tmSet_ne st hk sv]
            exact hdom iv (List.mem_cons_of_mem _ hm) hne
        obtain ⟨st', cp', h1, h2, h3, h4⟩ := ih (tmSet st a sv) (tmSet cp a ev) hdom'
        refine ⟨st', cp',
          (fillTimes_cons_none a sv ev rest st cp ha hw).trans h1, ?_, ?_, ?_⟩
        · intro k x h
          have hk : k ≠ a := by
            intro he
            rw [he, hw] at h
            simp at h
          apply h2
          rw [tmFind_tmSet_ne st hk sv]
          exact h
        · intro k h
          by_cases hk : k = a
          · subst hk
            rw [specStart_cons_take ha]
            exact h2 k sv (tmFind_tmSet_self hw sv)
          · rw [specStart_cons_skip (Or.inr (fun he => hk he.symm))]
            apply h3
            rw [tmFind_tmSet_ne st hk sv]
            exact h
        · intro k v h
          by_cases hk : k = a
          · subst hk
            rw [specCompletion_cons_take ha]
            have h4' := h4 k (some ev) (tmFind_tmSet_self h ev)
            cases hsc : specCompletion rest k with
            | some e =>
              rw [hsc] at h4'
              exact h4'
            | none =>
              rw [hsc] at h4'
              exact h4'
          · rw [specCompletion_cons_skip (Or.inr (fun he => hk he.symm))]
            exact h4 k v (by rw [tmFind_tmSet_ne cp hk ev]; exact h)
      | some x0 =>
        have hdom' : ∀ iv ∈ rest, iv.1 ≠ "idle" → ∃ w, tmFind st iv.1 = some w :=
          fun iv hm hne => hdom iv (List.mem_cons_of_mem _ hm) hne
        obtain ⟨st', cp', h1, h2, h3, h4⟩ := ih st (tmSet cp a ev) hdom'
        refine ⟨st', cp',
          (fillTimes_cons_some a sv ev rest st cp x0 ha hw).trans h1, h2, ?_, ?_⟩
        · intro k h
          by_cases hk : k = a
          · subst hk
            rw [hw] at h
            simp at h
          · rw [specStart_cons_skip (Or.inr (fun he => hk he.symm))]
            exact h3 k h
        · intro k v h
          by_cases hk : k = a
          · subst hk
            rw [specCompletion_cons_take ha]
            have h4' := h4 k (some ev) (tmFind_tmSet_self h ev)
            cases hsc : specCompletion rest k with
            | some e =>
              rw [hsc] at h4'
              exact h4'
            | none =>
              rw [hsc] at h4'
              exact h4'
          · rw [specCompletion_cons_skip (Or.inr (fun he => hk he.symm))]
            exact h4 k v (by rw [tmFind_tmSet_ne cp hk ev]; exact h)

/-- When the filled maps carry exactly the spec's first/last interval
bounds for a pid, the code's row equals the spec's row. -/
theorem rowOf_eq_specRow {st cp : TimeMap} {g : Gantt} {d : Desc}
    (hs : tmFind st d.pid = some (specStart g d.pid))
    (hc : tmFind cp d.pid = some (specCompletion g d.pid)) :
    rowOf st cp d = specRow g d := by
  unfold rowOf specRow
  rw [hs, hc]
  cases specStart g d.pid <;> cases specCompletion g d.pid <;> rfl

/-- Unfolding `compute_metrics_from_gantt` when the timeline scan succeeds. -/
theorem compute_metrics_eq (ds : List Desc) (g : Gantt) (st cp : TimeMap)
    (hfill : fillTimes g ((infoOf ds).map (fun d => (d.pid, (none : Option Int))))
        ((infoOf ds).map (fun d => (d.pid, (none : Option Int)))) = some (st, cp)) :
    compute_metrics_from_gantt ds g =
      some ((infoOf ds).map (rowOf st cp), mkAvgs ((infoOf ds).map (rowOf st cp))) := by
  simp only [compute_metrics_from_gantt]
  rw [hfill]
  rfl

theorem rows_eq_specRows {ds : List Desc} {g : Gantt} {st cp : TimeMap}
    (h3 : ∀ k, tmFind ((infoOf ds).map (fun d => (d.pid, (none : Option Int)))) k =
        some none → tmFind st k = some (specStart g k))
    (h4 : ∀ k v, tmFind ((infoOf ds).map (fun d => (d.pid, (none : Option Int)))) k =
        some v → tmFind cp k = some (match specCompletion g k with
          | some e => some e
          | none => v)) :
    (infoOf ds).map (rowOf st cp) = (infoOf ds).map (specRow g) := by
  apply List.map_congr_left
  intro d hd
  have hpid : d.pid ∈ (infoOf ds).map Desc.pid := List.mem_map_of_mem _ hd
  have hs0 : tmFind ((infoOf ds).map (fun d => (d.pid, (none : Option Int)))) d.pid =
      some none := by rw [tmFind_init, if_pos hpid]
  apply rowOf_eq_specRow
  · exact h3 d.pid hs0
  · have h := h4 d.pid none hs0
    cases hsc : specCompletion g d.pid with
    | some e =>
      rw [hsc] at h
      exact h
    | none =>
      rw [hsc] at h
      exact h

/-- C6 (amended): on any timeline whose non-idle actors all come from the
descriptor list, the metrics calculator succeeds and returns, per pid of the
`info` dict, the row whose start/completion are the start of the first and
the end of the last non-idle interval carrying that pid (all timing fields
null when the pid appears in no interval), with `TAT = completion - arrival`,
`WT = TAT - burst`, `RT = start - arrival`; the aggregates are the exact
arithmetic means over the rows with non-null TAT and are null when no such
row exists; an empty process list yields an empty timeline under every
policy and null aggregates, not an error.  (On a timeline with a non-idle
actor outside the descriptors the calculator instead raises `KeyError`, so
the coverage hypothesis cannot be dropped.) -/
theorem c6_metrics_rows_and_averages (ds : List Desc) (g : Gantt)
    (hcov : ∀ iv ∈ g, iv.1 ≠ "idle" → iv.1 ∈ (infoOf ds).map Desc.pid) :
    ∃ rows avgs, compute_metrics_from_gantt ds g = some (rows, avgs) ∧
      rows = (infoOf ds).map (specRow g) ∧
      (rows.filter (fun r => r.tat.isSome) = [] → avgs = ⟨none, none, none⟩) ∧
      (rows.filter (fun r => r.tat.isSome) ≠ [] →
        avgs.avg_tat = some ((optSum Row.tat (rows.filter (fun r => r.tat.isSome)) : ℚ) /
            ((rows.filter (fun r => r.tat.isSome)).length : ℚ)) ∧
        avgs.avg_wt = some ((optSum Row.wt (rows.filter (fun r => r.tat.isSome)) : ℚ) /
            ((rows.filter (fun r => r.tat.isSome)).length : ℚ)) ∧
        avgs.avg_rt = some ((optSum Row.rt (rows.filter (fun r => r.tat.isSome)) : ℚ) /
            ((rows.filter (fun r => r.tat.isSome)).length : ℚ))) ∧
      (ds = [] → rows = [] ∧ avgs = ⟨none, none, none⟩) ∧
      (fcfs [] = [] ∧ sjf_nonpreemptive 1 [] = some [] ∧ sjf_preemptive 1 [] = some [] ∧
        round_robin 1 [] 2 = some [] ∧ priority_nonpreemptive 1 [] = some [] ∧
        priority_preemptive 1 [] = some []) := by
  have hdom : ∀ iv ∈ g, iv.1 ≠ "idle" →
      ∃ w, tmFind ((infoOf ds).map (fun d => (d.pid, (none : Option Int)))) iv.1 = some w := by
    intro iv hm hne
    refine ⟨none, ?_⟩
    rw [tmFind_init, if_pos (hcov iv hm hne)]
  obtain ⟨st, cp, hfill, _, h3, h4⟩ := fillTimes_char g _ _ hdom
  have hcm := compute_metrics_eq ds g st cp hfill
  rw [rows_eq_specRows h3 h4] at hcm
  refine ⟨(infoOf ds).map (specRow g), mkAvgs ((infoOf ds).map (specRow g)),
    hcm, rfl, ?_, ?_, ?_, rfl, rfl, rfl, rfl, rfl, rfl⟩
  · intro hemp
    rw [mkAvgs, hemp]
    simp [mkAvg]
  · intro hne
    cases hfe : ((infoOf ds).map (specRow g)).filter (fun r => r.tat.isSome) with
    | nil => exact absurd hfe hne
    | cons r t =>
      refine ⟨?_, ?_, ?_⟩ <;> simp [mkAvgs, mkAvg, hfe]
  · intro hds
    subst hds
    exact ⟨rfl, rfl⟩

theorem c6_metrics_rows_and_averages_witness :
    (∀ iv ∈ ([("P1", (0 : Int), (2 : Int))] : Gantt), iv.1 ≠ "idle" →
      iv.1 ∈ (infoOf [⟨"P1", 0, 2, 0⟩]).map Desc.pid) ∧
    (∃ rows avgs,
      compute_metrics_from_gantt [⟨"P1", 0, 2, 0⟩] [("P1", (0 : Int), (2 : Int))] =
        some (rows, avgs) ∧
      rows = (infoOf [⟨"P1", 0, 2, 0⟩]).map (specRow [("P1", (0 : Int), (2 : Int))]) ∧
      (rows.filter (fun r => r.tat.isSome) = [] → avgs = ⟨none, none, none⟩) ∧
      (rows.filter (fun r => r.tat.isSome) ≠ [] →
        avgs.avg_tat = some ((optSum Row.tat (rows.filter (fun r => r.tat.isSome)) : ℚ) /
            ((rows.filter (fun r => r.tat.isSome)).length : ℚ)) ∧
        avgs.avg_wt = some ((optSum Row.wt (rows.filter (fun r => r.tat.isSome)) : ℚ) /
            ((rows.filter (fun r => r.tat.isSome)).length : ℚ)) ∧
        avgs.avg_rt = some ((optSum Row.rt (rows.filter (fun r => r.tat.isSome)) : ℚ) /
            ((rows.filter (fun r => r.tat.isSome)).length : ℚ))) ∧
      (([⟨"P1", 0, 2, 0⟩] : List Desc) = [] → rows = [] ∧ avgs = ⟨none, none, none⟩) ∧
      (fcfs [] = [] ∧ sjf_nonpreemptive 1 [] = some [] ∧ sjf_preemptive 1 [] = some [] ∧
        round_robin 1 [] 2 = some [] ∧ priority_nonpreemptive 1 [] = some [] ∧
        priority_preemptive 1 [] = some [])) :=
  ⟨by decide, c6_metrics_rows_and_averages [⟨"P1", 0, 2, 0⟩]
    [("P1", (0 : Int), (2 : Int))] (by decide)⟩

/-! ## Claim C10: a process named `idle` runs but is invisible to metrics -/

theorem pidIntervals_idle (g : Gantt) : pidIntervals g "idle" = [] := by
  induction g with
  | nil => rfl
  | cons iv rest ih =>
    simp only [pidIntervals, List.filter_cons] at ih ⊢
    rw [Bool.and_not_self]
    simp only [Bool.false_eq_true, if_false]
    exact ih

theorem specRow_pid (g : Gantt) (d : Desc) : (specRow g d).pid = d.pid := by
  unfold specRow
  cases specStart g d.pid <;> cases specCompletion g d.pid <;> rfl

theorem specRow_idle (g : Gantt) (d : Desc) (h : d.pid = "idle") :
    specRow g d =
      { pid := d.pid, arrival := d.arrival, burst := d.burst,
        priority := d.priority, start := none, completion := none,
        tat := none, wt := none, rt := none } := by
  have hs : specStart g d.pid = none := by
    rw [h, specStart, pidIntervals_idle]
    rfl
  have hc : specCompletion g d.pid = none := by
    rw [h, specCompletion, pidIntervals_idle]
    rfl
  unfold specRow
  rw [hs, hc]

/-- C10: a process whose pid is the literal string `idle` is scheduled like
any other — all six policies run it, emitting intervals whose actor is
`idle` — but the metrics calculator skips every interval labelled `idle`,
so that process's row has null start, completion, TAT, WT and RT and it is
excluded from the aggregate averages even though the timeline charges it
CPU time.  General part: whenever the metrics succeed, the row of an
`idle`-named descriptor is all-null and no row entering the averages has
pid `idle`.  Concrete part: on descriptors `[(idle,0,2,0), (P2,3,1,1)]`
every policy returns `[(idle,0,2), (idle,2,3), (P2,3,4)]`, the `idle` actor
is charged 3 ticks (at least its burst 2), and the metrics give the `idle`
process an all-null row with averages computed from `P2` alone. -/
theorem c10_idle_pid_scheduled_but_skipped_in_metrics :
    (∀ (ds : List Desc) (g : Gantt) (d : Desc),
      (∀ iv ∈ g, iv.1 ≠ "idle" → iv.1 ∈ (infoOf ds).map Desc.pid) →
      d ∈ infoOf ds → d.pid = "idle" →
      ∃ rows avgs, compute_metrics_from_gantt ds g = some (rows, avgs) ∧
        ({ pid := d.pid, arrival := d.arrival, burst := d.burst,
           priority := d.priority, start := none, completion := none,
           tat := none, wt := none, rt := none : Row } ∈ rows) ∧
        (∀ r ∈ rows.filter (fun r => r.tat.isSome), r.pid ≠ "idle")) ∧
    (fcfs (procsOf [⟨"idle", 0, 2, 0⟩, ⟨"P2", 3, 1, 1⟩]) =
        [("idle", 0, 2), ("idle", 2, 3), ("P2", 3, 4)] ∧
      sjf_nonpreemptive 20 (procsOf [⟨"idle", 0, 2, 0⟩, ⟨"P2", 3, 1, 1⟩]) =
        some [("idle", 0, 2), ("idle", 2, 3), ("P2", 3, 4)] ∧
      sjf_preemptive 20 (procsOf [⟨"idle", 0, 2, 0⟩, ⟨"P2", 3, 1, 1⟩]) =
        some [("idle", 0, 2), ("idle", 2, 3), ("P2", 3, 4)] ∧
      round_robin 20 (procsOf [⟨"idle", 0, 2, 0⟩, ⟨"P2", 3, 1, 1⟩]) 2 =
        some [("idle", 0, 2), ("idle", 2, 3), ("P2", 3, 4)] ∧
      priority_nonpreemptive 20 (procsOf [⟨"idle", 0, 2, 0⟩, ⟨"P2", 3, 1, 1⟩]) =
        some [("idle", 0, 2), ("idle", 2, 3), ("P2", 3, 4)] ∧
      priority_preemptive 20 (procsOf [⟨"idle", 0, 2, 0⟩, ⟨"P2", 3, 1, 1⟩]) =
        some [("idle", 0, 2), ("idle", 2, 3), ("P2", 3, 4)] ∧
      sumLen [("idle", 0, 2), ("idle", 2, 3), ("P2", 3, 4)] "idle" = 3 ∧
      (2 : Int) ≤ 3 ∧
      compute_metrics_from_gantt [⟨"idle", 0, 2, 0⟩, ⟨"P2", 3, 1, 1⟩]
          [("idle", 0, 2), ("idle", 2, 3), ("P2", 3, 4)] =
        some ([{ pid := "idle", arrival := 0, burst := 2, priority := 0,
                 start := none, completion := none, tat := none, wt := none,
                 rt := none },
               { pid := "P2", arrival := 3, burst := 1, priority := 1,
                 start := some 3, completion := some 4, tat := some 1,
                 wt := some 0, rt := some 0 }],
              mkAvgs [{ pid := "idle", arrival := 0, burst := 2, priority := 0,
                        start := none, completion := none, tat := none,
                        wt := none, rt := none },
                      { pid := "P2", arrival := 3, burst := 1, priority := 1,
                        start := some 3, completion := some 4, tat := some 1,
                        wt := some 0, rt := some 0 }]) ∧
      mkAvgs [{ pid := "idle", arrival := 0, burst := 2, priority := 0,
                start := none, completion := none, tat := none,
                wt := none, rt := none },
              ({ pid := "P2", arrival := 3, burst := 1, priority := 1,
                 start := some 3, completion := some 4, tat := some 1,
                 wt := some 0, rt := some 0 } : Row)] =
        ⟨some 1, some 0, some 0⟩) := by
  constructor
  · intro ds g d hcov hd hpid
    have hdom : ∀ iv ∈ g, iv.1 ≠ "idle" →
        ∃ w, tmFind ((infoOf ds).map (fun d => (d.pid, (none : Option Int)))) iv.1 =
          some w := by
      intro iv hm hne
      refine ⟨none, ?_⟩
      rw [tmFind_init, if_pos (hcov iv hm hne)]
    obtain ⟨st, cp, hfill, _, h3, h4⟩ := fillTimes_char g _ _ hdom
    have hcm := compute_metrics_eq ds g st cp hfill
    rw [rows_eq_specRows h3 h4] at hcm
    refine ⟨(infoOf ds).map (specRow g), _, hcm, ?_, ?_⟩
    · rw [← specRow_idle g d hpid]
      exact List.mem_map_of_mem _ hd
    · intro r hr hpid'
      obtain ⟨hrm, hts⟩ := List.mem_filter.mp hr
      obtain ⟨d', hd', hrd⟩ := List.mem_map.mp hrm
      have hd'pid : d'.pid = "idle" := by
        rw [← specRow_pid g d', hrd]
        exact hpid'
      have htat : r.tat = none := by
        rw [← hrd, specRow_idle g d' hd'pid]
      rw [htat] at hts
      simp at hts
  · exact ⟨by decide, by decide, by decide, by decide, by decide, by decide,
      by decide, by decide, by rfl, by simp [mkAvgs, mkAvg, optSum]⟩

end CPUSched
